import Mathlib

set_option maxRecDepth 4000

/-!
Shallow embedding of the HTTP caching proxy's response parser
(`src/docker-deploy/src/response.cpp`) and shared response cache
(`src/docker-deploy/src/cache.cpp`), together with the caching decision of
`Proxy::handleCaching` (`src/docker-deploy/src/proxy.cpp`).

Text is modelled as `List Char` (C++ `std::string` bytes).  Time points are
modelled as `Int`; the two HTTP-date conversion routines (`strptime`/`mktime`
based) are abstracted as function parameters `phd : String → Int`
(parse) and `fmt : Int → String` (format), since the claims under
verification never depend on the concrete calendar arithmetic.
-/

namespace ProxyModel

/-- C locale `isspace` characters, as used by `istream >> ...` and `stoi`. -/
def isSpaceC (c : Char) : Bool :=
  c = ' ' || c = '\t' || c = '\n' || c = '\x0b' || c = '\x0c' || c = '\r'

/-- Decimal digit test (`'0'..'9'`), as used by integer extraction. -/
def isDigitC (c : Char) : Bool :=
  48 ≤ c.toNat && c.toNat ≤ 57

/-- Successive `std::getline(stream, line, d)` results: split at delimiter `d`,
the delimiter being consumed; a trailing delimiter does not produce a final
empty field (`getline` fails at EOF).  Auxiliary accumulator version. -/
def splitStreamAux (d : Char) : List Char → List Char → List (List Char)
  | [], acc => [acc.reverse]
  | c :: rest, acc =>
    if c = d then acc.reverse :: (if rest.isEmpty then [] else splitStreamAux d rest [])
    else splitStreamAux d rest (c :: acc)

/-- All fields read by repeated `std::getline(stream, line, d)` on contents `s`. -/
def splitStream (d : Char) (s : List Char) : List (List Char) :=
  if s.isEmpty then [] else splitStreamAux d s []

/-- Value of a list of decimal digit characters (most significant first). -/
def digitsVal (l : List Char) : Nat :=
  l.foldl (fun a c => a * 10 + (c.toNat - 48)) 0

/-- Read a maximal nonempty run of decimal digits from the front of `u`. -/
def readDigitsOpt (u : List Char) : Option (Nat × List Char) :=
  let ds := u.takeWhile isDigitC
  if ds.isEmpty then none else some (digitsVal ds, u.dropWhile isDigitC)

/-- Model of C++ decimal integer extraction (`istream >> int` / `stoi`):
skip whitespace, optional sign, then a nonempty digit run; `none` models
failure (failbit respectively a thrown exception). -/
def readIntFrom (s : List Char) : Option (Int × List Char) :=
  let t := s.dropWhile isSpaceC
  match t with
  | [] => none
  | c :: u =>
    if c = '-' then (readDigitsOpt u).map (fun p => (-(p.1 : Int), p.2))
    else if c = '+' then (readDigitsOpt u).map (fun p => ((p.1 : Int), p.2))
    else (readDigitsOpt t).map (fun p => ((p.1 : Int), p.2))

/-- Model of `std::stoi` on a whole string (result value only). -/
def stoiOpt (s : List Char) : Option Int :=
  (readIntFrom s).map (fun p => p.1)

/-- Decimal digit characters of `n`, most significant first (fuel version so
that the definition is structurally recursive; `natDigits` supplies ample
fuel). -/
def natDigitsGo : Nat → Nat → List Char
  | 0, _ => []
  | fuel + 1, n =>
    if n < 10 then [Char.ofNat (48 + n)]
    else natDigitsGo fuel (n / 10) ++ [Char.ofNat (48 + n % 10)]

/-- Decimal digit characters of `n`, most significant first. -/
def natDigits (n : Nat) : List Char := natDigitsGo (n + 1) n

/-- Characters printed by `operator<<` for an `int` value. -/
def intToChars (n : Int) : List Char :=
  if n < 0 then '-' :: natDigits n.natAbs else natDigits n.toNat

/-- `s.find(pat) == 0`, i.e. `s` begins with `pat`. -/
def leadsWith (pat s : List Char) : Bool :=
  decide (s.take pat.length = pat)

/-- `s.find(pat) != npos`, i.e. `pat` occurs somewhere in `s`. -/
def hasSub (pat : List Char) : List Char → Bool
  | [] => leadsWith pat []
  | c :: rest => leadsWith pat (c :: rest) || hasSub pat rest

/-- Erase the maximal trailing run of character `c`
(`erase(find_last_not_of(c) + 1)`). -/
def dropTrailing (c : Char) (l : List Char) : List Char :=
  (l.reverse.dropWhile (fun x => decide (x = c))).reverse

/-- Trim of a Cache-Control directive: leading then trailing spaces
(`erase(0, find_first_not_of(" "))`; `erase(find_last_not_of(" ") + 1)`). -/
def trimSpaces (l : List Char) : List Char :=
  dropTrailing ' ' (l.dropWhile (fun x => decide (x = ' ')))

/-- Trim of a header value: leading spaces, then trailing `'\r'` characters. -/
def trimValue (l : List Char) : List Char :=
  dropTrailing '\r' (l.dropWhile (fun x => decide (x = ' ')))

/-- `#define CACHE_PUBLIC 1` (util.hpp). -/
def CACHE_PUBLIC : Int := 1
/-- `#define CACHE_PRIVATE 2` (util.hpp). -/
def CACHE_PRIVATE : Int := 2
/-- `#define CACHE_IMMUTABLE 3` (util.hpp). -/
def CACHE_IMMUTABLE : Int := 3
/-- `#define CACHE_MUST_REVALIDATE 4` (util.hpp). -/
def CACHE_MUST_REVALIDATE : Int := 4
/-- `#define CACHE_NO_STORE 5` (util.hpp). -/
def CACHE_NO_STORE : Int := 5
/-- `#define CACHE_NORMAL 6` (util.hpp). -/
def CACHE_NORMAL : Int := 6

/-- The `Response` record of response.hpp, with the same fields and default
member initializers. -/
structure Response where
  status_code : Int := 0
  status_message : String := ""
  http_version : String := ""
  header : List (String × String) := []
  body : String := ""
  expire_time : String := ""
  is_chunked : Bool := false
  content_length : Int := -1
  no_store : Bool := false
  no_cache : Bool := false
  must_revalidate : Bool := false
  max_age : Int := -1
  cache_mode : Int := 0
  cache_visibility : Int := CACHE_PUBLIC
  deriving DecidableEq

/-- `std::map<string,string>::find` (the header maps have unique keys). -/
def hfind : List (String × String) → String → Option String
  | [], _ => none
  | p :: t, k => if p.1 = k then some p.2 else hfind t k

/-- `std::map<string,string>` insert-or-assign (`header[key] = value`),
keeping the representation sorted by key as `std::map` iteration order is. -/
def insertSorted : List (String × String) → String × String → List (String × String)
  | [], q => [q]
  | p :: t, q =>
    if q.1 < p.1 then q :: p :: t
    else if q.1 = p.1 then (q.1, q.2) :: t
    else p :: insertSorted t q

/-- Intermediate state of the directive loop in `Response::parseCacheControl`. -/
structure CCState where
  r : Response
  issmax_age : Bool
  deriving DecidableEq

/-- One iteration of the directive loop of `Response::parseCacheControl`
(response.cpp lines 64-99), including the unguarded
`directive.find(CACHECTR_SMAXAGE)` truthiness test of line 89 and the
exception paths of `stoi`/`substr`. -/
def ccDirective (st : CCState) (d : List Char) : CCState :=
  let r := st.r
  if d = "no-store".data then
    { st with r := { r with no_store := true, cache_mode := CACHE_NO_STORE } }
  else if d = "no-cache".data then
    { st with r := { r with no_cache := true, cache_mode := CACHE_MUST_REVALIDATE } }
  else if d = "must-revalidate".data ∨ d = "proxy-revalidate".data then
    { st with r := { r with must_revalidate := true, cache_mode := CACHE_MUST_REVALIDATE } }
  else if d = "private".data then
    { st with r := { r with cache_visibility := CACHE_PRIVATE } }
  else if d = "public".data then
    { st with r := { r with cache_visibility := CACHE_PUBLIC } }
  else if leadsWith "max-age=".data d then
    if st.issmax_age = false then
      match stoiOpt (d.drop 8) with
      | some n => { st with r := { r with max_age := n } }
      | none => { st with r := { r with max_age := -1 } }
    else st
  else if !leadsWith "s-maxage=".data d then
    if r.cache_visibility = CACHE_PUBLIC then
      match (if d.length < 9 then none else stoiOpt (d.drop 9)) with
      | some n => { st with issmax_age := true, r := { r with max_age := n } }
      | none => { st with issmax_age := true, r := { r with max_age := -1 } }
    else st
  else st

/-- `Response::parseCacheControl` (response.cpp lines 56-104), including the
final `if (!no_cache && !no_cache && !must_revalidate)` normal-mode override
exactly as written. -/
def parseCacheControl (r : Response) : Response :=
  match hfind r.header "Cache-Control" with
  | none => r
  | some v =>
    let ds := (splitStream ',' v.data).map trimSpaces
    let st := ds.foldl ccDirective { r := r, issmax_age := false }
    let r2 := st.r
    if !r2.no_cache && !r2.no_cache && !r2.must_revalidate then
      { r2 with cache_mode := CACHE_NORMAL }
    else r2

/-- Second half of `Response::setExpiredTime` (the `else` of the
`max-age`-present test): `Expires` verbatim, else `Date` on
`must_revalidate`, else the heuristic `Date + (Date - Last-Modified)/10`. -/
def setExpiredElse (phd : String → Int) (fmt : Int → String)
    (r : Response) (date? : Option String) : Response :=
  match hfind r.header "Expires" with
  | some e => { r with expire_time := e }
  | none =>
    match date? with
    | some d =>
      if r.must_revalidate then { r with expire_time := d }
      else if r.cache_mode ≠ CACHE_NO_STORE then
        match hfind r.header "Last-Modified" with
        | some lm => { r with expire_time := fmt (phd d + Int.tdiv (phd d - phd lm) 10) }
        | none => r
      else r
    | none => r

/-- `Response::setExpiredTime` (response.cpp lines 182-212). -/
def setExpiredTime (phd : String → Int) (fmt : Int → String) (r : Response) : Response :=
  match hfind r.header "Date" with
  | some d =>
    if r.max_age > 0 then { r with expire_time := fmt (phd d + r.max_age) }
    else setExpiredElse phd fmt r (some d)
  | none => setExpiredElse phd fmt r none

/-- Header-phase accumulator of `Response::parseResponse`. -/
structure HeadState where
  header : List (String × String)
  is_chunked : Bool
  content_length : Int
  deriving DecidableEq

/-- One header line of `Response::parseResponse` (response.cpp lines 137-153):
split at the first `':'`, trim the value, store it, then detect
`Transfer-Encoding: ...chunked...` and `Content-Length` (whose `stoi` may
throw, modelled by `none`). -/
def processHeaderLine (line : List Char) (st : HeadState) : Option HeadState :=
  match line.findIdx? (fun c => decide (c = ':')) with
  | none => some st
  | some i =>
    let key := line.take i
    let value := trimValue (line.drop (i + 1))
    let st1 : HeadState := { st with header := insertSorted st.header (⟨key⟩, ⟨value⟩) }
    if key = "Transfer-Encoding".data ∧ hasSub "chunked".data value then
      some { st1 with is_chunked := true }
    else if key = "Content-Length".data then
      match stoiOpt value with
      | some n => some { st1 with content_length := n }
      | none => none
    else some st1

/-- The header loop `while (getline(iss, line) && line != "\r" && line != "")`
of `Response::parseResponse`; returns the accumulated state and the remaining
lines (the body lines). -/
def parseHeaders : List (List Char) → HeadState → Option (HeadState × List (List Char))
  | [], st => some (st, [])
  | l :: rest, st =>
    if l = ['\r'] ∨ l = [] then some (st, rest)
    else
      match processHeaderLine l st with
      | none => none
      | some st1 => parseHeaders rest st1

/-- `status_stream >> http_version >> status_code; getline(status_stream,
status_message)` — on extraction failure the C++ stream leaves the int at `0`
and the subsequent `getline` yields an empty message. -/
def parseStatusLine (line : List Char) : String × Int × String :=
  let t := line.dropWhile isSpaceC
  let ver := t.takeWhile (fun c => !isSpaceC c)
  if ver.isEmpty then ("", 0, "")
  else
    let rest1 := t.dropWhile (fun c => !isSpaceC c)
    match readIntFrom rest1 with
    | none => (⟨ver⟩, 0, "")
    | some (n, rest2) => (⟨ver⟩, n, ⟨rest2⟩)

/-- The body loop `while (getline(iss, line)) body_stream << line << "\n"`:
every remaining line, re-terminated with `'\n'`. -/
def bodyJoin : List (List Char) → List Char
  | [] => []
  | l :: ls => l ++ '\n' :: bodyJoin ls

/-- `Response::parseResponse` (response.cpp lines 120-171): status line,
header loop, body (skipped when chunked), then `parseCacheControl` and
`setExpiredTime`.  `none` models a thrown exception. -/
def parseResponse (phd : String → Int) (fmt : Int → String) (buf : String) :
    Option Response :=
  match splitStream '\n' buf.data with
  | [] => none
  | statusLine :: rest =>
    let s := parseStatusLine statusLine
    match parseHeaders rest { header := [], is_chunked := false, content_length := -1 } with
    | none => none
    | some (hst, bodyLines) =>
      let r0 : Response :=
        { status_code := s.2.1, status_message := s.2.2, http_version := s.1,
          header := hst.header,
          body := if hst.is_chunked then "" else ⟨bodyJoin bodyLines⟩,
          is_chunked := hst.is_chunked, content_length := hst.content_length }
      some (setExpiredTime phd fmt (parseCacheControl r0))

/-- The header block of `Response::toString`: each pair printed as
`key: value\r\n` in map (key) order. -/
def headerChars : List (String × String) → List Char
  | [] => []
  | p :: t => p.1.data ++ ':' :: ' ' :: p.2.data ++ '\r' :: '\n' :: headerChars t

/-- Characters produced by `Response::toString` (response.cpp lines 328-340). -/
def respChars (r : Response) : List Char :=
  r.http_version.data ++ ' ' :: intToChars r.status_code ++ ' ' :: r.status_message.data
    ++ '\r' :: '\n' :: headerChars r.header ++ '\r' :: '\n' :: r.body.data

/-- `Response::toString`. -/
def respToString (r : Response) : String := ⟨respChars r⟩

/-- `Response::isCacheable` (response.cpp lines 301-311); the call sites in
`Proxy::handleCaching` use the default argument `isPrivateCache = false`. -/
def Response.isCacheable (r : Response) (isPrivateCache : Bool) : Bool :=
  if r.status_code ≠ 200 ∨ r.cache_mode = CACHE_NO_STORE then false
  else if r.cache_visibility = CACHE_PRIVATE ∧ !isPrivateCache then false
  else true

/-- The `CacheStatus` enum of util.hpp. -/
inductive CacheStatus where
  | NOT_IN_CACHE
  | EXPIRED
  | REQUIRES_VALIDATION
  | VALID
  | NOT_CACHEABLE
  | WILL_EXPIRE
  | REVALIDATION
  deriving DecidableEq

/-- `Cache::CacheEntry` (cache.hpp lines 20-24). -/
structure CacheEntry where
  response : Response
  url : String
  last_checked : Int
  deriving DecidableEq

/-- The data members of `Cache` (cache.hpp lines 26-32); the lock is elided in
this sequential model. -/
structure CacheState where
  cache_map : List (String × CacheEntry)
  lru_list : List String
  max_entries : Nat
  cleanup_interval : Int
  last_cleanup : Int
  deriving DecidableEq

/-- A freshly constructed `Cache(size, clean_sec)` (last_cleanup := now()). -/
def emptyCache (m : Nat) (ci lc : Int) : CacheState :=
  { cache_map := [], lru_list := [], max_entries := m,
    cleanup_interval := ci, last_cleanup := lc }

/-- `unordered_map::find` — the map has unique keys, modelled as first match. -/
def mapFind : List (String × CacheEntry) → String → Option CacheEntry
  | [], _ => none
  | p :: t, k => if p.1 = k then some p.2 else mapFind t k

/-- `unordered_map::erase(key)` — removes the entry with key `k`. -/
def mapErase (m : List (String × CacheEntry)) (k : String) :
    List (String × CacheEntry) :=
  m.filter (fun p => decide (p.1 ≠ k))

/-- `it->second.last_checked = now` on the entry found for key `k`. -/
def mapSetChecked : List (String × CacheEntry) → String → Int →
    List (String × CacheEntry)
  | [], _, _ => []
  | p :: t, k, now =>
    if p.1 = k then (p.1, { p.2 with last_checked := now }) :: t
    else p :: mapSetChecked t k now

/-- `it->second.response = response` on the entry found for key `k` (the old
response is destroyed; `url` and `last_checked` keep their values). -/
def mapSetResp : List (String × CacheEntry) → String → Response →
    List (String × CacheEntry)
  | [], _, _ => []
  | p :: t, k, r =>
    if p.1 = k then (p.1, { p.2 with response := r }) :: t
    else p :: mapSetResp t k r

/-- `std::list<string>::remove(url)` — removes every element equal to `url`. -/
def lruRemove (url : String) : List String → List String
  | [] => []
  | x :: t => if x = url then lruRemove url t else x :: lruRemove url t

/-- `Cache::updateLRU` (cache.cpp lines 10-13): remove then push_front. -/
def updateLRU (url : String) (l : List String) : List String :=
  url :: lruRemove url l

/-- `Cache::isExpired` (cache.cpp lines 23-36): expired when `expire_time` is
empty or the parsed time is before `now` (`now > expireTime`). -/
def isExpired (pd : String → Int) (now : Int) (r : Response) : Bool :=
  if r.expire_time = "" then true else decide (pd r.expire_time < now)

/-- The eviction loop of `Cache::cacheUpdate` (cache.cpp lines 46-58):
`while (cache_map.size() >= max_entries && !lru_list.empty())` evict the LRU
tail.  Each iteration pops one element of `lru_list`, so fuel
`lru_list.length` makes the fuel-based recursion coincide with the loop. -/
def cacheUpdateGo (m : Nat) : Nat → List (String × CacheEntry) → List String →
    List (String × CacheEntry) × List String
  | 0, mp, lru => (mp, lru)
  | fuel + 1, mp, lru =>
    if m ≤ mp.length ∧ lru ≠ [] then
      match lru.getLast? with
      | some u => cacheUpdateGo m fuel (mapErase mp u) lru.dropLast
      | none => (mp, lru)
    else (mp, lru)

/-- `Cache::cacheUpdate` (cache.cpp lines 45-59). -/
def cacheUpdate (st : CacheState) : CacheState :=
  let p := cacheUpdateGo st.max_entries st.lru_list.length st.cache_map st.lru_list
  { st with cache_map := p.1, lru_list := p.2 }

/-- `Cache::cleanExpiredResponse` (cache.cpp lines 137-152): set
`last_cleanup := now`, delete every expired entry from the map and remove its
url from the LRU list. -/
def cleanExpiredResponse (pd : String → Int) (now : Int) (st : CacheState) :
    CacheState :=
  let removed := (st.cache_map.filter (fun p => isExpired pd now p.2.response)).map
    (fun p => p.1)
  { st with
    last_cleanup := now
    cache_map := st.cache_map.filter (fun p => !isExpired pd now p.2.response)
    lru_list := st.lru_list.filter (fun u => !decide (u ∈ removed)) }

namespace Cache

/-- `Cache::get` (cache.cpp lines 70-128), sequential model: in this model the
re-lookup after the shared-to-exclusive lock transition always finds the same
entry again, so the concurrent re-check branches collapse. -/
def get (pd : String → Int) (now : Int) (st : CacheState) (url : String) :
    CacheStatus × Option Response × CacheState :=
  match mapFind st.cache_map url with
  | none => (CacheStatus.NOT_IN_CACHE, none, st)
  | some e =>
    if isExpired pd now e.response then
      (CacheStatus.EXPIRED, some e.response, st)
    else if e.response.cache_mode = CACHE_IMMUTABLE then
      (CacheStatus.VALID, some e.response,
        { st with
          cache_map := mapSetChecked st.cache_map url now
          lru_list := updateLRU url st.lru_list })
    else if e.response.cache_mode = CACHE_MUST_REVALIDATE then
      (CacheStatus.REQUIRES_VALIDATION, some e.response, st)
    else
      (CacheStatus.VALID, some e.response,
        { st with
          cache_map := mapSetChecked st.cache_map url now
          lru_list := updateLRU url st.lru_list })

/-- `Cache::put` (cache.cpp lines 163-193): early return on null or
`CACHE_NO_STORE`, periodic sweep, replace-and-touch, or evict-then-insert. -/
def put (pd : String → Int) (now : Int) (st : CacheState) (url : String)
    (response : Option Response) : CacheState :=
  match response with
  | none => st
  | some r =>
    if r.cache_mode = CACHE_NO_STORE then st
    else
      let st1 :=
        if st.cleanup_interval < now - st.last_cleanup then
          cleanExpiredResponse pd now st
        else st
      match mapFind st1.cache_map url with
      | some _ =>
        { st1 with
          cache_map := mapSetResp st1.cache_map url r
          lru_list := updateLRU url st1.lru_list }
      | none =>
        let st2 := cacheUpdate st1
        { st2 with
          cache_map := (url, { response := r, url := url, last_checked := 0 }) :: st2.cache_map
          lru_list := updateLRU url st2.lru_list }

/-- `Cache::size`. -/
def size (st : CacheState) : Nat := st.cache_map.length

end Cache

/-- `ps.foldl` of `Cache::put` calls, all at time `now`. -/
def putsFold (pd : String → Int) (now : Int) (st : CacheState)
    (ps : List (String × Response)) : CacheState :=
  ps.foldl (fun s p => Cache.put pd now s p.1 (some p.2)) st

/-- Successive `Cache::get` calls on the urls of `us`, threading the state and
collecting each returned (status, response) pair. -/
def getsFold (pd : String → Int) (now : Int) :
    CacheState → List String → List (CacheStatus × Option Response)
  | _, [] => []
  | st, u :: us =>
    let g := Cache.get pd now st u
    (g.1, g.2.1) :: getsFold pd now g.2.2 us

/-- The header line bytes `key: value\r` as produced by `Response::toString`
(after the line split removes the trailing `\n`). -/
def emitLine (p : String × String) : List Char :=
  p.1.data ++ ':' :: ' ' :: p.2.data ++ ['\r']

/-- Net effect of one well-formed emitted header line on the header-phase
accumulator (the exceptional `stoi` path cannot occur on such a line). -/
def stepH (st : HeadState) (p : String × String) : HeadState :=
  let st1 : HeadState := { st with header := insertSorted st.header p }
  if p.1 = "Transfer-Encoding" ∧ hasSub "chunked".data p.2.data then
    { st1 with is_chunked := true }
  else if p.1 = "Content-Length" then
    { st1 with content_length := (stoiOpt p.2.data).getD 0 }
  else st1

/-- Structural facts holding of every response produced by `parseResponse`;
they drive the serialize/re-parse round-trip proof. -/
structure GoodResp (R : Response) : Prop where
  hver : ∀ c ∈ R.http_version.data, isSpaceC c = false
  hverCase : R.http_version.data = [] → R.status_code = 0 ∧ R.status_message = ""
  hmsg : '\n' ∉ R.status_message.data
  hsorted : R.header.Pairwise (fun p q => p.1 < q.1)
  hkeys : ∀ p ∈ R.header, ':' ∉ p.1.data ∧ '\n' ∉ p.1.data
  hvals : ∀ p ∈ R.header, '\n' ∉ p.2.data ∧
    (∀ c, p.2.data.head? = some c → c ≠ ' ') ∧ p.2.data.getLast? ≠ some '\r'
  hchunkTE : (∃ v, hfind R.header "Transfer-Encoding" = some v ∧
    hasSub "chunked".data v.data = true) → R.is_chunked = true
  hCLsome : ∀ v, hfind R.header "Content-Length" = some v →
    stoiOpt v.data = some R.content_length
  hCLnone : hfind R.header "Content-Length" = none → R.content_length = -1
  hbodyChunked : R.is_chunked = true → R.body = ""
  hbodyLines : R.is_chunked = false →
    ∃ ls, (∀ l ∈ ls, '\n' ∉ l) ∧ R.body.data = bodyJoin ls

/-- The part of the header-phase invariant maintained by the header loop of
`parseResponse`. -/
structure GoodHead (st : HeadState) : Prop where
  hsorted : st.header.Pairwise (fun p q => p.1 < q.1)
  hkeys : ∀ p ∈ st.header, ':' ∉ p.1.data ∧ '\n' ∉ p.1.data
  hvals : ∀ p ∈ st.header, '\n' ∉ p.2.data ∧
    (∀ c, p.2.data.head? = some c → c ≠ ' ') ∧ p.2.data.getLast? ≠ some '\r'
  hchunkTE : (∃ v, hfind st.header "Transfer-Encoding" = some v ∧
    hasSub "chunked".data v.data = true) → st.is_chunked = true
  hCLsome : ∀ v, hfind st.header "Content-Length" = some v →
    stoiOpt v.data = some st.content_length
  hCLnone : hfind st.header "Content-Length" = none → st.content_length = -1

/-- The fields of `Response` not touched by `parseCacheControl` and
`setExpiredTime`. -/
def sameCore (a b : Response) : Prop :=
  a.status_code = b.status_code ∧ a.status_message = b.status_message ∧
  a.http_version = b.http_version ∧ a.header = b.header ∧ a.body = b.body ∧
  a.is_chunked = b.is_chunked ∧ a.content_length = b.content_length

/-- The `min (done.length) m` most recently put pairs, most recent first. -/
def recentOf (m : Nat) (done : List (String × Response)) : List (String × Response) :=
  done.reverse.take m

/-- The map entry created by the insert path of `Cache::put` (last_checked is
default-initialized). -/
def toEntry (p : String × Response) : String × CacheEntry :=
  (p.1, { response := p.2, url := p.1, last_checked := 0 })

/-- Cache states reachable from a freshly constructed cache by any sequence of
`get` and `put` operations (at arbitrary times). -/
inductive Reach (pd : String → Int) : CacheState → Prop
  | init (m : Nat) (ci lc : Int) : Reach pd (emptyCache m ci lc)
  | step_get {st : CacheState} (now : Int) (url : String) :
      Reach pd st → Reach pd (Cache.get pd now st url).2.2
  | step_put {st : CacheState} (now : Int) (url : String) (r : Option Response) :
      Reach pd st → Reach pd (Cache.put pd now st url r)

/-- The "not cacheable because ..." reason computed by `Proxy::handleCaching`
(proxy.cpp lines 204-218). -/
def ncReason (r : Response) : String :=
  if r.status_code ≠ 200 then "status code is not 200 OK"
  else if r.no_store then "no-store directive"
  else if r.cache_mode = CACHE_NO_STORE then "cache-control: no-store"
  else "unknow"

/-- Log events emitted by `Proxy::handleCaching`. -/
inductive CacheLogEvent where
  | notCacheable (reason : String)
  | willExpire (t : String)
  | revalidation
  deriving DecidableEq

/-- `Proxy::handleCaching` (proxy.cpp lines 204-230): if the response is not
cacheable (shared cache, `isPrivateCache = false`), log the reason and destroy
the response without touching the cache; otherwise log the storage decision
and `cache.put` it. -/
def handleCaching (pd : String → Int) (now : Int) (r : Response) (url : String)
    (st : CacheState) : CacheState × List CacheLogEvent :=
  if !r.isCacheable false then
    (st, [CacheLogEvent.notCacheable (ncReason r)])
  else
    let evs :=
      if r.expire_time ≠ "" then [CacheLogEvent.willExpire r.expire_time]
      else if r.no_cache ∨ r.must_revalidate then [CacheLogEvent.revalidation]
      else []
    (Cache.put pd now st url (some r), evs)

end ProxyModel

namespace ProxyModel

/-! ### Fixed functions used to instantiate the abstract date parameters -/

/-- Trivial instantiation of the HTTP-date parser parameter. -/
def pdZ : String → Int := fun _ => 0

/-- Trivial instantiation of the HTTP-date formatter parameter. -/
def fmtZ : Int → String := fun _ => ""

/-- A normal-mode, non-expired (under `wPd`/time 3) response used in witnesses. -/
def wResp : Response := { cache_mode := CACHE_NORMAL, expire_time := "x" }

/-- Cache entry holding `wResp`. -/
def wEntry : CacheEntry := { response := wResp, url := "u", last_checked := 0 }

/-- One-entry cache state used in witnesses. -/
def wState : CacheState :=
  { cache_map := [("u", wEntry)], lru_list := ["u"], max_entries := 50,
    cleanup_interval := 300, last_cleanup := 0 }

/-- Date parser used in witnesses: every date string parses to time 5. -/
def wPd : String → Int := fun _ => 5

/-- Keys of the cache map, in representation order. -/
def mapKeys (m : List (String × CacheEntry)) : List String :=
  m.map (fun p => p.1)

/-- The structural cache invariant: the LRU list has no duplicates, the map
has unique keys, the key set of the map equals the element set of the LRU
list, and (for a cache constructed with at least one slot) the map never
holds more than `max_entries` entries. -/
def Inv (st : CacheState) : Prop :=
  st.lru_list.Nodup ∧ (mapKeys st.cache_map).Nodup ∧
  (∀ k, k ∈ mapKeys st.cache_map ↔ k ∈ st.lru_list) ∧
  (1 ≤ st.max_entries → st.cache_map.length ≤ st.max_entries)

/-- Buffer used in the C8 witness. -/
def wBuf8 : String := "HTTP/1.1 200 OK\r\nContent-Length: 3\r\n\r\nabc"

/-- The response parsed from `wBuf8` (checked by evaluation in the witness). -/
def wR8 : Response :=
  { status_code := 200
    status_message := " OK\r"
    http_version := "HTTP/1.1"
    header := [("Content-Length", "3")]
    body := "abc\n"
    content_length := 3 }

/-- Buffer with a duplicated Transfer-Encoding header, "chunked" first: the
C8 counterexample input. -/
def cBuf8 : String :=
  "HTTP/1.1 200 OK\r\nTransfer-Encoding: chunked\r\nTransfer-Encoding: gzip\r\n\r\n"

/-- The status line emitted by `Response::toString` (without the newline). -/
def statusChars (r : Response) : List Char :=
  r.http_version.data ++ (' ' :: intToChars r.status_code
    ++ (' ' :: r.status_message.data ++ ['\r']))


/-! ### Basic lemmas -/

theorem isExpired_iff (pd : String → Int) (now : Int) (r : Response) :
    isExpired pd now r = true ↔ (r.expire_time = "" ∨ pd r.expire_time < now) := by
  unfold isExpired
  split
  · simp_all
  · simp_all

theorem mapFind_mapSetChecked_self (m : List (String × CacheEntry)) (k : String)
    (now : Int) (e : CacheEntry) (h : mapFind m k = some e) :
    mapFind (mapSetChecked m k now) k = some { e with last_checked := now } := by
  induction m with
  | nil => simp [mapFind] at h
  | cons p t ih =>
    by_cases hp : p.1 = k
    · simp [mapFind, hp] at h
      simp [mapSetChecked, hp, mapFind, h]
    · simp [mapFind, hp] at h
      simp [mapSetChecked, hp, mapFind, ih h]

theorem mapFind_mapSetChecked_ne (m : List (String × CacheEntry)) (k k' : String)
    (now : Int) (h : k' ≠ k) :
    mapFind (mapSetChecked m k now) k' = mapFind m k' := by
  induction m with
  | nil => simp [mapSetChecked]
  | cons p t ih =>
    by_cases hp : p.1 = k
    · simp [mapSetChecked, hp, mapFind, Ne.symm h]
    · simp [mapSetChecked, hp, mapFind]
      split
      · rfl
      · exact ih

/-! ### Claim theorems (first batch) -/

/-- C1: the claim states that a Cache-Control value containing `no-store` and
none of `no-cache`/`must-revalidate`/`proxy-revalidate` yields `no_store = true`
and `cache_mode = CACHE_NO_STORE`.  The code does set `no_store` and
momentarily `CACHE_NO_STORE`, but its final guard reads
`!no_cache && !no_cache && !must_revalidate` (omitting `no_store`), so the
mode is overwritten with `CACHE_NORMAL`: here evaluated at the failing input
`Cache-Control: no-store`. -/
theorem claim_C1 :
    (parseResponse pdZ fmtZ "HTTP/1.1 200 OK\r\nCache-Control: no-store\r\n\r\n").map
      (fun r => (r.no_store, r.cache_mode)) = some (true, CACHE_NORMAL) ∧
    CACHE_NORMAL ≠ CACHE_NO_STORE :=
  ⟨by decide, by decide⟩

/-- C3: the claim states the `s-maxage=N` rule fires exactly on directives
beginning with `s-maxage=`.  The code tests `directive.find(CACHECTR_SMAXAGE)`
as a truthy value, so the branch is skipped precisely when the directive does
begin with `s-maxage=` and taken for every other unmatched directive:
`s-maxage=100` (visibility PUBLIC) leaves `max_age = -1` instead of 100, and
the unmatched directive `immutable` destroys a previously parsed
`max-age=50` and suppresses the later `max-age=30`. -/
theorem claim_C3 :
    (parseResponse pdZ fmtZ "HTTP/1.1 200 OK\r\nCache-Control: s-maxage=100\r\n\r\n").map
      (fun r => (r.max_age, r.cache_visibility)) = some (-1, CACHE_PUBLIC) ∧
    (parseResponse pdZ fmtZ
      "HTTP/1.1 200 OK\r\nCache-Control: max-age=50, immutable, max-age=30\r\n\r\n").map
      (fun r => r.max_age) = some (-1) :=
  ⟨by decide, by decide⟩

/-- C2: case analysis of `Cache::get`: absent url gives NOT_IN_CACHE with no
response and an unchanged state; an entry whose expire_time is empty or parses
before `now` gives EXPIRED with the stored response and an unchanged state;
otherwise MUST_REVALIDATE gives REQUIRES_VALIDATION with the stored response;
otherwise (NORMAL or IMMUTABLE) the call returns VALID with the stored
response, moves the url to the LRU front and sets the entry's last_checked to
`now`, leaving all other entries unchanged. -/
theorem claim_C2 (pd : String → Int) (now : Int) (st : CacheState) (url : String) :
    (mapFind st.cache_map url = none →
      Cache.get pd now st url = (CacheStatus.NOT_IN_CACHE, none, st)) ∧
    (∀ e, mapFind st.cache_map url = some e →
      (e.response.expire_time = "" ∨ pd e.response.expire_time < now) →
      Cache.get pd now st url = (CacheStatus.EXPIRED, some e.response, st)) ∧
    (∀ e, mapFind st.cache_map url = some e →
      ¬(e.response.expire_time = "" ∨ pd e.response.expire_time < now) →
      e.response.cache_mode = CACHE_MUST_REVALIDATE →
      Cache.get pd now st url = (CacheStatus.REQUIRES_VALIDATION, some e.response, st)) ∧
    (∀ e, mapFind st.cache_map url = some e →
      ¬(e.response.expire_time = "" ∨ pd e.response.expire_time < now) →
      (e.response.cache_mode = CACHE_NORMAL ∨ e.response.cache_mode = CACHE_IMMUTABLE) →
      (Cache.get pd now st url).1 = CacheStatus.VALID ∧
      (Cache.get pd now st url).2.1 = some e.response ∧
      (Cache.get pd now st url).2.2.lru_list = url :: lruRemove url st.lru_list ∧
      mapFind (Cache.get pd now st url).2.2.cache_map url = some { e with last_checked := now } ∧
      (∀ k, k ≠ url → mapFind (Cache.get pd now st url).2.2.cache_map k = mapFind st.cache_map k)) := by
  refine ⟨?_, ?_, ?_, ?_⟩
  · intro h
    simp [Cache.get, h]
  · intro e he hex
    have : isExpired pd now e.response = true := (isExpired_iff pd now e.response).mpr hex
    simp [Cache.get, he, this]
  · intro e he hex hmode
    have hnex : isExpired pd now e.response = false := by
      rcases h : isExpired pd now e.response with _ | _
      · rfl
      · exact absurd ((isExpired_iff pd now e.response).mp h) hex
    have himm : e.response.cache_mode ≠ CACHE_IMMUTABLE := by
      rw [hmode]; decide
    have hlit : ¬(CACHE_MUST_REVALIDATE = CACHE_IMMUTABLE) := by decide
    simp [Cache.get, he, hnex, himm, hmode, hlit]
  · intro e he hex hmode
    have hnex : isExpired pd now e.response = false := by
      rcases h : isExpired pd now e.response with _ | _
      · rfl
      · exact absurd ((isExpired_iff pd now e.response).mp h) hex
    have hget : Cache.get pd now st url =
        (CacheStatus.VALID, some e.response,
          { st with
            cache_map := mapSetChecked st.cache_map url now
            lru_list := updateLRU url st.lru_list }) := by
      rcases hmode with h6 | h3
      · have himm : e.response.cache_mode ≠ CACHE_IMMUTABLE := by rw [h6]; decide
        have hmr : e.response.cache_mode ≠ CACHE_MUST_REVALIDATE := by rw [h6]; decide
        have hl1 : ¬(CACHE_NORMAL = CACHE_IMMUTABLE) := by decide
        have hl2 : ¬(CACHE_NORMAL = CACHE_MUST_REVALIDATE) := by decide
        simp [Cache.get, he, hnex, himm, hmr, h6, hl1, hl2]
      · have hl3 : CACHE_IMMUTABLE = CACHE_IMMUTABLE := rfl
        simp [Cache.get, he, hnex, h3, hl3]
    rw [hget]
    exact ⟨rfl, rfl, rfl, mapFind_mapSetChecked_self st.cache_map url now e he,
      fun k hk => mapFind_mapSetChecked_ne st.cache_map url k now hk⟩

/-- Witness for C2: the NORMAL, non-expired branch at a concrete one-entry
cache returns VALID. -/
theorem claim_C2_witness :
    (Cache.get wPd 3 wState "u").1 = CacheStatus.VALID ∧
    (Cache.get wPd 3 wState "u").2.1 = some wResp :=
  have h := (claim_C2 wPd 3 wState "u").2.2.2 wEntry (by decide) (by decide) (Or.inl (by decide))
  ⟨h.1, h.2.1⟩

/-- C7: `Cache::put` with a null response or one whose cache_mode is
CACHE_NO_STORE returns before taking the lock: the state (map, LRU list and
last_cleanup alike) is exactly the one before the call. -/
theorem claim_C7 (pd : String → Int) (now : Int) (st : CacheState) (url : String) :
    Cache.put pd now st url none = st ∧
    ∀ r : Response, r.cache_mode = CACHE_NO_STORE → Cache.put pd now st url (some r) = st := by
  constructor
  · rfl
  · intro r h
    simp [Cache.put, h]

/-- Witness for C7 at a concrete state and response. -/
theorem claim_C7_witness :
    Cache.put wPd 0 wState "u" none = wState ∧
    Cache.put wPd 0 wState "u" (some { cache_mode := CACHE_NO_STORE }) = wState :=
  ⟨(claim_C7 wPd 0 wState "u").1,
    (claim_C7 wPd 0 wState "u").2 { cache_mode := CACHE_NO_STORE } rfl⟩

/-- C10: a response marked `Cache-Control: private` is never stored:
`isCacheable` with the default `isPrivateCache = false` rejects it whatever
its status code or other directives, and `handleCaching` then only logs the
not-cacheable reason, leaving the cache state untouched. -/
theorem claim_C10 (pd : String → Int) (now : Int) (st : CacheState) (url : String)
    (r : Response) (h : r.cache_visibility = CACHE_PRIVATE) :
    r.isCacheable false = false ∧
    handleCaching pd now r url st = (st, [CacheLogEvent.notCacheable (ncReason r)]) := by
  have hc : r.isCacheable false = false := by
    unfold Response.isCacheable
    split
    · rfl
    · rw [if_pos ⟨h, rfl⟩]
  exact ⟨hc, by simp [handleCaching, hc]⟩

/-- Witness for C10: a concrete private 200 response is rejected and the
cache state survives unchanged. -/
theorem claim_C10_witness :
    Response.isCacheable { status_code := 200, cache_visibility := CACHE_PRIVATE } false = false ∧
    handleCaching wPd 0 { status_code := 200, cache_visibility := CACHE_PRIVATE } "u" wState =
      (wState, [CacheLogEvent.notCacheable "unknow"]) :=
  claim_C10 wPd 0 wState "u" { status_code := 200, cache_visibility := CACHE_PRIVATE } rfl

/-! ### LRU list lemmas -/

theorem mem_lruRemove (u v : String) (l : List String) :
    v ∈ lruRemove u l ↔ v ∈ l ∧ v ≠ u := by
  induction l with
  | nil => simp [lruRemove]
  | cons x t ih =>
    rw [lruRemove]
    split
    · next hx =>
      subst hx
      rw [ih, List.mem_cons]
      constructor
      · rintro ⟨h1, h2⟩
        exact ⟨Or.inr h1, h2⟩
      · rintro ⟨h1 | h1, h2⟩
        · exact absurd h1 h2
        · exact ⟨h1, h2⟩
    · next hx =>
      rw [List.mem_cons, List.mem_cons, ih]
      constructor
      · rintro (rfl | ⟨h1, h2⟩)
        · exact ⟨Or.inl rfl, fun h => hx h⟩
        · exact ⟨Or.inr h1, h2⟩
      · rintro ⟨rfl | h1, h2⟩
        · exact Or.inl rfl
        · exact Or.inr ⟨h1, h2⟩

theorem lruRemove_eq_of_not_mem {u : String} {l : List String} (h : u ∉ l) :
    lruRemove u l = l := by
  induction l with
  | nil => rfl
  | cons x t ih =>
    have hx : x ≠ u := fun he => h (he ▸ List.mem_cons_self x t)
    rw [lruRemove, if_neg hx, ih (fun hm => h (List.mem_cons_of_mem x hm))]

theorem nodup_lruRemove (u : String) {l : List String} (h : l.Nodup) :
    (lruRemove u l).Nodup := by
  induction l with
  | nil => exact List.nodup_nil
  | cons x t ih =>
    rcases List.nodup_cons.mp h with ⟨hx, ht⟩
    by_cases hxu : x = u
    · rw [lruRemove, if_pos hxu]
      exact ih ht
    · rw [lruRemove, if_neg hxu, List.nodup_cons]
      exact ⟨fun hm => hx ((mem_lruRemove u x t).mp hm).1, ih ht⟩

theorem nodup_updateLRU (u : String) {l : List String} (h : l.Nodup) :
    (updateLRU u l).Nodup := by
  rw [updateLRU, List.nodup_cons]
  exact ⟨fun hm => ((mem_lruRemove u u l).mp hm).2 rfl, nodup_lruRemove u h⟩

theorem mem_updateLRU (u v : String) (l : List String) :
    v ∈ updateLRU u l ↔ v = u ∨ (v ∈ l ∧ v ≠ u) := by
  rw [updateLRU, List.mem_cons, mem_lruRemove]

theorem mem_updateLRU_of_mem {u : String} {l : List String} (hu : u ∈ l) (v : String) :
    v ∈ updateLRU u l ↔ v ∈ l := by
  rw [mem_updateLRU]
  constructor
  · rintro (rfl | ⟨h1, _⟩)
    · exact hu
    · exact h1
  · intro h
    by_cases hv : v = u
    · exact Or.inl hv
    · exact Or.inr ⟨h, hv⟩

/-! ### Cache map lemmas -/

theorem mapKeys_nil : mapKeys [] = [] := rfl

theorem mapKeys_cons (p : String × CacheEntry) (t : List (String × CacheEntry)) :
    mapKeys (p :: t) = p.1 :: mapKeys t := rfl

theorem mapKeys_length (m : List (String × CacheEntry)) :
    (mapKeys m).length = m.length := List.length_map m _

theorem mapKeys_mapSetChecked (m : List (String × CacheEntry)) (k : String) (now : Int) :
    mapKeys (mapSetChecked m k now) = mapKeys m := by
  induction m with
  | nil => rfl
  | cons p t ih =>
    rw [mapSetChecked]
    split
    · rfl
    · rw [mapKeys_cons, mapKeys_cons, ih]

theorem mapKeys_mapSetResp (m : List (String × CacheEntry)) (k : String) (r : Response) :
    mapKeys (mapSetResp m k r) = mapKeys m := by
  induction m with
  | nil => rfl
  | cons p t ih =>
    rw [mapSetResp]
    split
    · rfl
    · rw [mapKeys_cons, mapKeys_cons, ih]

theorem length_mapSetChecked (m : List (String × CacheEntry)) (k : String) (now : Int) :
    (mapSetChecked m k now).length = m.length := by
  rw [← mapKeys_length, mapKeys_mapSetChecked, mapKeys_length]

theorem length_mapSetResp (m : List (String × CacheEntry)) (k : String) (r : Response) :
    (mapSetResp m k r).length = m.length := by
  rw [← mapKeys_length, mapKeys_mapSetResp, mapKeys_length]

theorem mapFind_mem_keys {m : List (String × CacheEntry)} {k : String} {e : CacheEntry}
    (h : mapFind m k = some e) : k ∈ mapKeys m := by
  induction m with
  | nil => exact absurd h (by simp [mapFind])
  | cons p t ih =>
    rw [mapFind] at h
    split at h
    · next hp => exact hp ▸ List.mem_cons_self p.1 (mapKeys t)
    · exact List.mem_cons_of_mem _ (ih h)

theorem mapFind_eq_none_iff (m : List (String × CacheEntry)) (k : String) :
    mapFind m k = none ↔ k ∉ mapKeys m := by
  induction m with
  | nil => simp [mapFind, mapKeys]
  | cons p t ih =>
    rw [mapFind, mapKeys_cons]
    split
    · next hp => simp [hp]
    · next hp =>
      rw [ih, List.mem_cons]
      constructor
      · intro h1 h2
        rcases h2 with h2 | h2
        · exact hp h2.symm
        · exact h1 h2
      · intro h1 h2
        exact h1 (Or.inr h2)

theorem mem_mapKeys_mapErase (m : List (String × CacheEntry)) (u k : String) :
    k ∈ mapKeys (mapErase m u) ↔ k ∈ mapKeys m ∧ k ≠ u := by
  induction m with
  | nil => simp [mapErase, mapKeys]
  | cons p t ih =>
    rw [mapErase, List.filter] at *
    split
    · next hp =>
      rw [mapKeys_cons, List.mem_cons, mapKeys_cons, List.mem_cons]
      have hpu : p.1 ≠ u := by simpa using hp
      constructor
      · rintro (rfl | h1)
        · exact ⟨Or.inl rfl, hpu⟩
        · rcases ih.mp h1 with ⟨h2, h3⟩
          exact ⟨Or.inr h2, h3⟩
      · rintro ⟨rfl | h1, h2⟩
        · exact Or.inl rfl
        · exact Or.inr (ih.mpr ⟨h1, h2⟩)
    · next hp =>
      have hpu : p.1 = u := by simpa using hp
      rw [ih, mapKeys_cons, List.mem_cons]
      constructor
      · rintro ⟨h1, h2⟩
        exact ⟨Or.inr h1, h2⟩
      · rintro ⟨rfl | h1, h2⟩
        · exact absurd hpu h2
        · exact ⟨h1, h2⟩

theorem mapKeys_filter_sub (q : String × CacheEntry → Bool)
    (m : List (String × CacheEntry)) {k : String}
    (h : k ∈ mapKeys (m.filter q)) : k ∈ mapKeys m := by
  induction m with
  | nil => simp [mapKeys] at h
  | cons p t ih =>
    rw [List.filter] at h
    split at h
    · rw [mapKeys_cons, List.mem_cons] at h ⊢
      rcases h with h | h
      · exact Or.inl h
      · exact Or.inr (ih h)
    · exact List.mem_cons_of_mem _ (ih h)

theorem nodup_mapKeys_filter (q : String × CacheEntry → Bool)
    {m : List (String × CacheEntry)} (h : (mapKeys m).Nodup) :
    (mapKeys (m.filter q)).Nodup := by
  induction m with
  | nil => exact List.nodup_nil
  | cons p t ih =>
    rcases List.nodup_cons.mp h with ⟨h1, h2⟩
    rw [List.filter]
    split
    · rw [mapKeys_cons, List.nodup_cons]
      exact ⟨fun hm => h1 (mapKeys_filter_sub q t hm), ih h2⟩
    · exact ih h2

theorem nodup_mapKeys_mapErase (u : String) {m : List (String × CacheEntry)}
    (h : (mapKeys m).Nodup) : (mapKeys (mapErase m u)).Nodup :=
  nodup_mapKeys_filter _ h

theorem length_mapErase_le (m : List (String × CacheEntry)) (u : String) :
    (mapErase m u).length ≤ m.length :=
  List.length_filter_le _ m

theorem length_mapErase_lt {m : List (String × CacheEntry)} {u : String}
    (h : u ∈ mapKeys m) : (mapErase m u).length < m.length := by
  induction m with
  | nil => simp [mapKeys] at h
  | cons p t ih =>
    rw [mapErase, List.filter]
    split
    · next hp =>
      have hpu : p.1 ≠ u := by simpa using hp
      rw [mapKeys_cons, List.mem_cons] at h
      rcases h with h | h
      · exact absurd h.symm hpu
      · simpa [mapErase] using Nat.succ_lt_succ (ih h)
    · exact Nat.lt_succ_of_le (length_mapErase_le t u)

theorem map_eq_nil_of_keys_empty {m : List (String × CacheEntry)}
    (h : ∀ k, k ∉ mapKeys m) : m = [] := by
  cases m with
  | nil => rfl
  | cons p t => exact absurd (List.mem_cons_self p.1 (mapKeys t)) (h p.1)

theorem mem_keys_filter_not (q : String × CacheEntry → Bool)
    {m : List (String × CacheEntry)} (hnd : (mapKeys m).Nodup) (k : String) :
    k ∈ mapKeys (m.filter (fun p => !q p)) ↔
      (k ∈ mapKeys m ∧ k ∉ mapKeys (m.filter q)) := by
  induction m with
  | nil => simp [mapKeys]
  | cons p t ih =>
    rcases List.nodup_cons.mp hnd with ⟨h1, h2⟩
    by_cases hq : q p
    · rw [show (p :: t).filter (fun p => !q p) = t.filter (fun p => !q p) by
        simp [List.filter, hq]]
      rw [show (p :: t).filter q = p :: t.filter q by simp [List.filter, hq]]
      rw [ih h2, mapKeys_cons, List.mem_cons, mapKeys_cons, List.mem_cons]
      constructor
      · rintro ⟨ha, hb⟩
        refine ⟨Or.inr ha, ?_⟩
        rintro (rfl | hc)
        · exact h1 ha
        · exact hb hc
      · rintro ⟨rfl | ha, hb⟩
        · exact absurd (Or.inl rfl) hb
        · exact ⟨ha, fun hc => hb (Or.inr hc)⟩
    · rw [show (p :: t).filter (fun p => !q p) = p :: t.filter (fun p => !q p) by
        simp [List.filter, hq]]
      rw [show (p :: t).filter q = t.filter q by simp [List.filter, hq]]
      rw [mapKeys_cons, List.mem_cons, ih h2, mapKeys_cons, List.mem_cons]
      constructor
      · rintro (rfl | ⟨ha, hb⟩)
        · exact ⟨Or.inl rfl, fun hc => h1 (mapKeys_filter_sub q t hc)⟩
        · exact ⟨Or.inr ha, hb⟩
      · rintro ⟨rfl | ha, hb⟩
        · exact Or.inl rfl
        · exact Or.inr ⟨ha, hb⟩

/-! ### Eviction loop specification -/

theorem cacheUpdateGo_spec (m : Nat) :
    ∀ (fuel : Nat) (mp : List (String × CacheEntry)) (lru : List String),
    lru.length ≤ fuel → lru.Nodup → (mapKeys mp).Nodup →
    (∀ k, k ∈ mapKeys mp ↔ k ∈ lru) →
    (cacheUpdateGo m fuel mp lru).2.Nodup ∧
    (mapKeys (cacheUpdateGo m fuel mp lru).1).Nodup ∧
    (∀ k, k ∈ mapKeys (cacheUpdateGo m fuel mp lru).1 ↔ k ∈ (cacheUpdateGo m fuel mp lru).2) ∧
    ((cacheUpdateGo m fuel mp lru).1.length < m ∨ (cacheUpdateGo m fuel mp lru).2 = []) ∧
    (∀ k, k ∈ mapKeys (cacheUpdateGo m fuel mp lru).1 → k ∈ mapKeys mp) := by
  intro fuel
  induction fuel with
  | zero =>
    intro mp lru hlen hnd1 hnd2 hiff
    have hnil : lru = [] := List.eq_nil_of_length_eq_zero (Nat.le_zero.mp hlen)
    subst hnil
    exact ⟨hnd1, hnd2, hiff, Or.inr rfl, fun _ h => h⟩
  | succ fuel ih =>
    intro mp lru hlen hnd1 hnd2 hiff
    rw [cacheUpdateGo]
    split
    · next hcond =>
      rcases hcond with ⟨hm, hne⟩
      split
      · next u heq =>
        have hu : u = lru.getLast hne := by
          have := List.getLast?_eq_getLast lru hne
          rw [heq] at this
          exact (Option.some_inj.mp this)
        have hdec : lru.dropLast ++ [u] = lru := by
          rw [hu]
          exact List.dropLast_append_getLast hne
        have hndapp : (lru.dropLast ++ [u]).Nodup := hdec.symm ▸ hnd1
        have hunotin : u ∉ lru.dropLast := by
          rcases List.nodup_append.mp hndapp with ⟨_, _, hdisj⟩
          intro hmem
          exact hdisj hmem (List.mem_singleton_self u)
        have hlen2 : lru.dropLast.length ≤ fuel := by
          have h1 : lru.dropLast.length = lru.length - 1 := List.length_dropLast lru
          have h2 : 1 ≤ lru.length := by
            cases lru with
            | nil => exact absurd rfl hne
            | cons a t => simp
          omega
        have hnd1' : lru.dropLast.Nodup := hnd1.sublist (List.dropLast_sublist lru)
        have hnd2' : (mapKeys (mapErase mp u)).Nodup := nodup_mapKeys_mapErase u hnd2
        have hiff' : ∀ k, k ∈ mapKeys (mapErase mp u) ↔ k ∈ lru.dropLast := by
          intro k
          rw [mem_mapKeys_mapErase, hiff k]
          constructor
          · rintro ⟨h1, h2⟩
            rw [← hdec, List.mem_append, List.mem_singleton] at h1
            rcases h1 with h1 | h1
            · exact h1
            · exact absurd h1 h2
          · intro h1
            have hku : k ≠ u := fun he => hunotin (he ▸ h1)
            refine ⟨?_, hku⟩
            rw [← hdec, List.mem_append]
            exact Or.inl h1
        have := ih (mapErase mp u) lru.dropLast hlen2 hnd1' hnd2' hiff'
        refine ⟨this.1, this.2.1, this.2.2.1, this.2.2.2.1, fun k hk => ?_⟩
        exact (mem_mapKeys_mapErase mp u k).mp (this.2.2.2.2 k hk) |>.1
      · next heq =>
        exact absurd (List.getLast?_eq_none_iff.mp heq) hne
    · next hcond =>
      rcases Decidable.not_and_iff_or_not.mp hcond with h | h
      · exact ⟨hnd1, hnd2, hiff, Or.inl (Nat.lt_of_not_le h), fun _ h => h⟩
      · exact ⟨hnd1, hnd2, hiff, Or.inr (Decidable.not_not.mp h), fun _ h => h⟩

/-! ### Invariant preservation -/

theorem mem_filter_not_mem_removed (l rem : List String) (k : String) :
    k ∈ l.filter (fun u => !decide (u ∈ rem)) ↔ (k ∈ l ∧ k ∉ rem) := by
  rw [List.mem_filter]
  simp

theorem inv_cleanExpired (pd : String → Int) (now : Int) {st : CacheState}
    (h : Inv st) : Inv (cleanExpiredResponse pd now st) := by
  rcases h with ⟨h1, h2, h3, h4⟩
  refine ⟨?_, ?_, ?_, ?_⟩
  · exact h1.filter _
  · exact nodup_mapKeys_filter _ h2
  · intro k
    rw [show (cleanExpiredResponse pd now st).cache_map =
      st.cache_map.filter (fun p => !isExpired pd now p.2.response) from rfl]
    rw [mem_keys_filter_not _ h2 k]
    rw [show (cleanExpiredResponse pd now st).lru_list =
      st.lru_list.filter (fun u => !decide (u ∈ (st.cache_map.filter
        (fun p => isExpired pd now p.2.response)).map (fun p => p.1))) from rfl]
    rw [mem_filter_not_mem_removed]
    constructor
    · rintro ⟨ha, hb⟩
      exact ⟨(h3 k).mp ha, hb⟩
    · rintro ⟨ha, hb⟩
      exact ⟨(h3 k).mpr ha, hb⟩
  · intro hm
    calc (cleanExpiredResponse pd now st).cache_map.length
        ≤ st.cache_map.length := List.length_filter_le _ _
      _ ≤ st.max_entries := h4 hm

theorem inv_get (pd : String → Int) (now : Int) {st : CacheState} (url : String)
    (h : Inv st) : Inv (Cache.get pd now st url).2.2 := by
  rcases hfind : mapFind st.cache_map url with _ | e
  · simpa [Cache.get, hfind] using h
  · have hurl : url ∈ mapKeys st.cache_map := mapFind_mem_keys hfind
    have hlru : url ∈ st.lru_list := (h.2.2.1 url).mp hurl
    have hinv2 : Inv { st with
        cache_map := mapSetChecked st.cache_map url now
        lru_list := updateLRU url st.lru_list } := by
      rcases h with ⟨h1, h2, h3, h4⟩
      refine ⟨nodup_updateLRU url h1, ?_, ?_, ?_⟩
      · rw [mapKeys_mapSetChecked]
        exact h2
      · intro k
        rw [mapKeys_mapSetChecked, mem_updateLRU_of_mem hlru k]
        exact h3 k
      · intro hm
        rw [length_mapSetChecked]
        exact h4 hm
    rw [Cache.get, hfind]
    dsimp only
    split
    · exact h
    · split
      · exact hinv2
      · split
        · exact h
        · exact hinv2

theorem inv_put (pd : String → Int) (now : Int) {st : CacheState} (url : String)
    (r? : Option Response) (h : Inv st) : Inv (Cache.put pd now st url r?) := by
  rcases r? with _ | r
  · exact h
  · rw [Cache.put]
    dsimp only
    split
    · exact h
    · have hst1 : Inv (if st.cleanup_interval < now - st.last_cleanup
          then cleanExpiredResponse pd now st else st) := by
        split
        · exact inv_cleanExpired pd now h
        · exact h
      set st1 := (if st.cleanup_interval < now - st.last_cleanup
        then cleanExpiredResponse pd now st else st) with hst1def
      rcases hfind : mapFind st1.cache_map url with _ | e
      · -- new entry path
        dsimp only
        rcases hst1 with ⟨h1, h2, h3, h4⟩
        have hgo := cacheUpdateGo_spec st1.max_entries st1.lru_list.length
          st1.cache_map st1.lru_list (Nat.le_refl _) h1 h2 h3
        have hurlnot : url ∉ mapKeys st1.cache_map := (mapFind_eq_none_iff _ _).mp hfind
        have hurlnot2 : url ∉ mapKeys (cacheUpdate st1).cache_map := by
          intro hmem
          exact hurlnot (hgo.2.2.2.2 url hmem)
        have hurlnot3 : url ∉ (cacheUpdate st1).lru_list := by
          intro hmem
          exact hurlnot2 ((hgo.2.2.1 url).mpr hmem)
        refine ⟨?_, ?_, ?_, ?_⟩
        · exact nodup_updateLRU url hgo.1
        · rw [mapKeys_cons, List.nodup_cons]
          exact ⟨hurlnot2, hgo.2.1⟩
        · intro k
          rw [mapKeys_cons, List.mem_cons, mem_updateLRU]
          constructor
          · rintro (rfl | h5)
            · exact Or.inl rfl
            · have hk := (hgo.2.2.1 k).mp h5
              by_cases hku : k = url
              · exact Or.inl hku
              · exact Or.inr ⟨hk, hku⟩
          · rintro (rfl | ⟨h5, h6⟩)
            · exact Or.inl rfl
            · exact Or.inr ((hgo.2.2.1 k).mpr h5)
        · intro hm
          dsimp only at hm ⊢
          rw [show (cacheUpdate st1).max_entries = st1.max_entries from rfl] at hm ⊢
          rw [List.length_cons,
            show (cacheUpdate st1).cache_map =
              (cacheUpdateGo st1.max_entries st1.lru_list.length st1.cache_map st1.lru_list).1 from rfl]
          rcases hgo.2.2.2.1 with hlt | hnil
          · omega
          · have hempty : (cacheUpdateGo st1.max_entries st1.lru_list.length
                st1.cache_map st1.lru_list).1 = [] := by
              apply map_eq_nil_of_keys_empty
              intro k hk
              have := (hgo.2.2.1 k).mp hk
              rw [hnil] at this
              exact absurd this (List.not_mem_nil k)
            rw [hempty]
            simpa using hm
      · -- replace path
        dsimp only
        rcases hst1 with ⟨h1, h2, h3, h4⟩
        have hurl : url ∈ mapKeys st1.cache_map := mapFind_mem_keys hfind
        have hlru : url ∈ st1.lru_list := (h3 url).mp hurl
        refine ⟨nodup_updateLRU url h1, ?_, ?_, ?_⟩
        · rw [mapKeys_mapSetResp]
          exact h2
        · intro k
          rw [mapKeys_mapSetResp, mem_updateLRU_of_mem hlru k]
          exact h3 k
        · intro hm
          rw [length_mapSetResp]
          exact h4 hm

theorem reach_inv {pd : String → Int} {st : CacheState} (h : Reach pd st) : Inv st := by
  induction h with
  | init m ci lc =>
    refine ⟨List.nodup_nil, List.nodup_nil, ?_, ?_⟩
    · intro k
      simp [emptyCache, mapKeys]
    · intro _
      simp [emptyCache]
  | step_get now url _ ih => exact inv_get _ now url ih
  | step_put now url r _ ih => exact inv_put _ now url r ih

/-- C4: in every cache state reachable from a fresh cache by get/put
operations, provided the cache was constructed with max_entries ≥ 1, the
number of entries never exceeds max_entries. -/
theorem claim_C4 (pd : String → Int) (st : CacheState) (h : Reach pd st)
    (hm : 1 ≤ st.max_entries) : Cache.size st ≤ st.max_entries :=
  (reach_inv h).2.2.2 hm

/-- Witness for C4: a put on a fresh 50-entry cache keeps size within bound. -/
theorem claim_C4_witness :
    1 ≤ (Cache.put wPd 0 (emptyCache 50 300 0) "u" (some wResp)).max_entries ∧
    Cache.size (Cache.put wPd 0 (emptyCache 50 300 0) "u" (some wResp)) ≤
      (Cache.put wPd 0 (emptyCache 50 300 0) "u" (some wResp)).max_entries :=
  ⟨by decide,
    claim_C4 wPd _ (Reach.step_put 0 "u" (some wResp) (Reach.init 50 300 0)) (by decide)⟩

/-- C5: in every reachable cache state the key set of the map equals the
element set of the LRU list, and the LRU list holds no duplicates (so both
get and put preserve this equality). -/
theorem claim_C5 (pd : String → Int) (st : CacheState) (h : Reach pd st) :
    st.lru_list.Nodup ∧ (∀ k, k ∈ mapKeys st.cache_map ↔ k ∈ st.lru_list) :=
  ⟨(reach_inv h).1, (reach_inv h).2.2.1⟩

/-- Witness for C5 after one put and one get on a fresh cache. -/
theorem claim_C5_witness :
    ((Cache.get wPd 3 (Cache.put wPd 0 (emptyCache 50 300 0) "u" (some wResp)) "u").2.2.lru_list.Nodup ∧
      (∀ k, k ∈ mapKeys (Cache.get wPd 3 (Cache.put wPd 0 (emptyCache 50 300 0) "u" (some wResp)) "u").2.2.cache_map ↔
        k ∈ (Cache.get wPd 3 (Cache.put wPd 0 (emptyCache 50 300 0) "u" (some wResp)) "u").2.2.lru_list)) :=
  claim_C5 wPd _
    (Reach.step_get 3 "u" (Reach.step_put 0 "u" (some wResp) (Reach.init 50 300 0)))

/-- C9: `Cache::get` never removes an entry: in any reachable state, after
`get(url)` returns, the key set of the map, the element set of the LRU list
and every stored response are unchanged (only LRU order and last_checked may
differ); in particular an entry that is expired at `now` is reported EXPIRED
with the state left fully unchanged. -/
theorem claim_C9 (pd : String → Int) (st : CacheState) (h : Reach pd st)
    (now : Int) (url : String) :
    (∀ k, k ∈ mapKeys (Cache.get pd now st url).2.2.cache_map ↔ k ∈ mapKeys st.cache_map) ∧
    (∀ k, k ∈ (Cache.get pd now st url).2.2.lru_list ↔ k ∈ st.lru_list) ∧
    (∀ k, (mapFind (Cache.get pd now st url).2.2.cache_map k).map (fun e => e.response) =
      (mapFind st.cache_map k).map (fun e => e.response)) ∧
    (∀ e, mapFind st.cache_map url = some e → isExpired pd now e.response = true →
      (Cache.get pd now st url).1 = CacheStatus.EXPIRED ∧ (Cache.get pd now st url).2.2 = st) := by
  have hinv := reach_inv h
  rcases hfind : mapFind st.cache_map url with _ | e
  · refine ⟨?_, ?_, ?_, ?_⟩
    · intro k
      simp [Cache.get, hfind]
    · intro k
      simp [Cache.get, hfind]
    · intro k
      simp [Cache.get, hfind]
    · intro e' he' _
      exact absurd he' (by simp)
  · have hurl : url ∈ mapKeys st.cache_map := mapFind_mem_keys hfind
    have hlru : url ∈ st.lru_list := (hinv.2.2.1 url).mp hurl
    have htouched : ∀ k,
        (mapFind (mapSetChecked st.cache_map url now) k).map (fun e2 => e2.response) =
          (mapFind st.cache_map k).map (fun e2 => e2.response) := by
      intro k
      by_cases hk : k = url
      · subst hk
        rw [mapFind_mapSetChecked_self st.cache_map k now e hfind, hfind]
        rfl
      · rw [mapFind_mapSetChecked_ne st.cache_map url k now hk]
    have hcases : (Cache.get pd now st url).2.2 = st ∨
        (Cache.get pd now st url).2.2 = { st with
          cache_map := mapSetChecked st.cache_map url now
          lru_list := updateLRU url st.lru_list } := by
      rw [Cache.get, hfind]
      dsimp only
      split
      · exact Or.inl rfl
      · split
        · exact Or.inr rfl
        · split
          · exact Or.inl rfl
          · exact Or.inr rfl
    refine ⟨?_, ?_, ?_, ?_⟩
    · rcases hcases with hc | hc <;> rw [hc]
      · intro k
        exact Iff.rfl
      · dsimp only
        intro k
        rw [mapKeys_mapSetChecked]
    · rcases hcases with hc | hc <;> rw [hc]
      · intro k
        exact Iff.rfl
      · dsimp only
        intro k
        exact mem_updateLRU_of_mem hlru k
    · rcases hcases with hc | hc <;> rw [hc]
      · intro k
        rfl
      · dsimp only
        exact htouched
    · intro e' he' hexp
      have he2 : e = e' := Option.some_inj.mp he'
      subst he2
      rw [Cache.get, hfind]
      dsimp only
      rw [if_pos hexp]
      exact ⟨rfl, rfl⟩

/-- Witness for C9: get on a one-entry reachable cache preserves the LRU
element set at the stored url. -/
theorem claim_C9_witness :
    "u" ∈ (Cache.get wPd 3 (Cache.put wPd 0 (emptyCache 50 300 0) "u" (some wResp)) "u").2.2.lru_list ↔
      "u" ∈ (Cache.put wPd 0 (emptyCache 50 300 0) "u" (some wResp)).lru_list :=
  (claim_C9 wPd _ (Reach.step_put 0 "u" (some wResp) (Reach.init 50 300 0)) 3 "u").2.1 "u"

/-! ### Lemmas supporting the LRU eviction-order claim -/

theorem mapKeys_map_toEntry (R : List (String × Response)) :
    mapKeys (R.map toEntry) = R.map Prod.fst := by
  induction R with
  | nil => rfl
  | cons a t ih =>
    rw [List.map_cons, mapKeys_cons, ih, List.map_cons]
    rfl

theorem mapFind_map_toEntry (R : List (String × Response)) (k : String) :
    (mapFind (R.map toEntry) k).map (fun e => e.response) =
      (R.find? (fun q => decide (q.1 = k))).map (fun q => q.2) := by
  induction R with
  | nil => rfl
  | cons a t ih =>
    rw [List.map_cons, mapFind]
    by_cases ha : a.1 = k
    · rw [if_pos (show (toEntry a).1 = k from ha),
        List.find?_cons_of_pos _ (by simpa using ha)]
      rfl
    · rw [if_neg (show ¬(toEntry a).1 = k from ha),
        List.find?_cons_of_neg _ (by simpa using ha)]
      exact ih

theorem mapErase_concat (R' : List (String × Response)) (q : String × Response)
    (hnot : q.1 ∉ R'.map Prod.fst) :
    mapErase ((R' ++ [q]).map toEntry) q.1 = R'.map toEntry := by
  induction R' with
  | nil =>
    show List.filter _ [toEntry q] = []
    simp [toEntry, mapErase]
  | cons a t ih =>
    have ha : a.1 ≠ q.1 := by
      intro he
      exact hnot (he ▸ List.mem_map_of_mem Prod.fst (List.mem_cons_self a t))
    have ht : q.1 ∉ t.map Prod.fst := fun hm => hnot (List.mem_cons_of_mem _ hm)
    show List.filter _ (toEntry a :: (t ++ [q]).map toEntry) = toEntry a :: t.map toEntry
    rw [List.filter_cons]
    rw [if_pos (by simpa [toEntry] using ha)]
    exact congrArg (toEntry a :: ·) (ih ht)

theorem cacheUpdateGo_noEvict (m fuel : Nat) (mp : List (String × CacheEntry))
    (lru : List String) (h : mp.length < m) :
    cacheUpdateGo m fuel mp lru = (mp, lru) := by
  cases fuel with
  | zero => rfl
  | succ fuel =>
    rw [cacheUpdateGo, if_neg]
    rintro ⟨h1, _⟩
    omega

theorem cleanExpired_frame (pd : String → Int) (now : Int) (st : CacheState)
    (h : ∀ q ∈ st.cache_map, isExpired pd now q.2.response = false) :
    cleanExpiredResponse pd now st = { st with last_cleanup := now } := by
  rw [cleanExpiredResponse]
  have h1 : st.cache_map.filter (fun p => isExpired pd now p.2.response) = [] := by
    rw [List.filter_eq_nil_iff]
    intro a ha
    rw [h a ha]
    decide
  have h2 : st.cache_map.filter (fun p => !isExpired pd now p.2.response) = st.cache_map := by
    rw [List.filter_eq_self]
    intro a ha
    rw [h a ha]
    decide
  rw [h1, h2]
  have h3 : st.lru_list.filter (fun u => !decide (u ∈ ([] : List (String × CacheEntry)).map (fun p => p.1))) = st.lru_list := by
    rw [List.filter_eq_self]
    intro a _
    simp
  rw [h3]

theorem find?_key_of_mem {R : List (String × Response)}
    (hnd : (R.map Prod.fst).Nodup) {p : String × Response} (hp : p ∈ R) :
    R.find? (fun q => decide (q.1 = p.1)) = some p := by
  induction R with
  | nil => exact absurd hp (List.not_mem_nil p)
  | cons a t ih =>
    rw [List.map_cons] at hnd
    rcases List.nodup_cons.mp hnd with ⟨ha, ht⟩
    rcases List.mem_cons.mp hp with rfl | hp2
    · exact List.find?_cons_of_pos _ (by simp)
    · have hne : a.1 ≠ p.1 := by
        intro he
        exact ha (he ▸ List.mem_map_of_mem Prod.fst hp2)
      rw [List.find?_cons_of_neg _ (by simpa using hne)]
      exact ih ht hp2

theorem get_found (pd : String → Int) (now : Int) (st : CacheState) (url : String)
    (e : CacheEntry) (h : mapFind st.cache_map url = some e) :
    (Cache.get pd now st url).1 ≠ CacheStatus.NOT_IN_CACHE ∧
    (Cache.get pd now st url).2.1 = some e.response := by
  rw [Cache.get, h]
  dsimp only
  split
  · exact ⟨by simp, rfl⟩
  · split
    · exact ⟨by simp, rfl⟩
    · split
      · exact ⟨by simp, rfl⟩
      · exact ⟨by simp, rfl⟩

theorem get_preserves_resp (pd : String → Int) (now : Int) (st : CacheState) (url : String) :
    ∀ k, (mapFind (Cache.get pd now st url).2.2.cache_map k).map (fun e => e.response) =
      (mapFind st.cache_map k).map (fun e => e.response) := by
  intro k
  rcases hfind : mapFind st.cache_map url with _ | e
  · rw [Cache.get, hfind]
  · have htouched :
        (mapFind (mapSetChecked st.cache_map url now) k).map (fun e2 => e2.response) =
          (mapFind st.cache_map k).map (fun e2 => e2.response) := by
      by_cases hk : k = url
      · subst hk
        rw [mapFind_mapSetChecked_self st.cache_map k now e hfind, hfind]
        rfl
      · rw [mapFind_mapSetChecked_ne st.cache_map url k now hk]
    rw [Cache.get, hfind]
    dsimp only
    split
    · rfl
    · split
      · exact htouched
      · split
        · rfl
        · exact htouched

/-- One fresh-url `Cache::put` on a cache holding exactly the entries of `R`
(most recent first, at most `m` of them, all non-expired): the result holds
the entries of `(p :: R).take m` — the new entry in front, the LRU tail
evicted iff the cache was full. -/
theorem put_fresh_step (pd : String → Int) (now : Int) (m : Nat) (hm : 1 ≤ m)
    (S : CacheState) (R : List (String × Response)) (p : String × Response)
    (hmap : S.cache_map = R.map toEntry) (hlru : S.lru_list = R.map Prod.fst)
    (hment : S.max_entries = m)
    (hndk : (R.map Prod.fst).Nodup)
    (hlenR : R.length ≤ m)
    (hfresh : p.1 ∉ R.map Prod.fst)
    (hmode : p.2.cache_mode ≠ CACHE_NO_STORE)
    (hexp : ∀ q ∈ R, isExpired pd now q.2 = false) :
    (Cache.put pd now S p.1 (some p.2)).cache_map = ((p :: R).take m).map toEntry ∧
    (Cache.put pd now S p.1 (some p.2)).lru_list = ((p :: R).take m).map Prod.fst ∧
    (Cache.put pd now S p.1 (some p.2)).max_entries = m := by
  have hall : ∀ q ∈ S.cache_map, isExpired pd now q.2.response = false := by
    intro q hq
    rw [hmap] at hq
    obtain ⟨q0, hq0, rfl⟩ := List.mem_map.mp hq
    exact hexp q0 hq0
  rw [Cache.put]
  dsimp only
  rw [if_neg hmode]
  set st1 := if S.cleanup_interval < now - S.last_cleanup
      then cleanExpiredResponse pd now S else S with hdef
  have hst1 : st1.cache_map = S.cache_map ∧ st1.lru_list = S.lru_list ∧
      st1.max_entries = S.max_entries := by
    rw [hdef]
    split
    · rw [cleanExpired_frame pd now S hall]
      exact ⟨rfl, rfl, rfl⟩
    · exact ⟨rfl, rfl, rfl⟩
  have hfind : mapFind st1.cache_map p.1 = none := by
    rw [hst1.1, hmap, mapFind_eq_none_iff, mapKeys_map_toEntry]
    exact hfresh
  rw [hfind]
  dsimp only
  have hcuProj1 : (cacheUpdate st1).cache_map =
      (cacheUpdateGo st1.max_entries st1.lru_list.length st1.cache_map st1.lru_list).1 := rfl
  have hcuProj2 : (cacheUpdate st1).lru_list =
      (cacheUpdateGo st1.max_entries st1.lru_list.length st1.cache_map st1.lru_list).2 := rfl
  have hcuProj3 : (cacheUpdate st1).max_entries = st1.max_entries := rfl
  have hcomp : st1.max_entries = m ∧ st1.cache_map = R.map toEntry ∧
      st1.lru_list = R.map Prod.fst :=
    ⟨hst1.2.2.trans hment, hst1.1.trans hmap, hst1.2.1.trans hlru⟩
  by_cases hR : R.length < m
  · -- no eviction
    have hgo : cacheUpdateGo st1.max_entries st1.lru_list.length st1.cache_map st1.lru_list
        = (R.map toEntry, R.map Prod.fst) := by
      rw [hcomp.1, hcomp.2.1, hcomp.2.2]
      exact cacheUpdateGo_noEvict m _ _ _ (by rw [List.length_map]; exact hR)
    have hcu1 : (cacheUpdate st1).cache_map = R.map toEntry := by rw [hcuProj1, hgo]
    have hcu2 : (cacheUpdate st1).lru_list = R.map Prod.fst := by rw [hcuProj2, hgo]
    have htake : (p :: R).take m = p :: R := by
      obtain ⟨m', rfl⟩ : ∃ m', m = m' + 1 := ⟨m - 1, by omega⟩
      rw [List.take_succ_cons, List.take_of_length_le (by omega)]
    refine ⟨?_, ?_, ?_⟩
    · rw [hcu1, htake]
      rfl
    · rw [hcu2, htake, updateLRU, lruRemove_eq_of_not_mem hfresh]
      rfl
    · rw [hcuProj3, hcomp.1]
  · -- cache is full: evict exactly the LRU tail
    have hRm : R.length = m := by omega
    have hne : R ≠ [] := by
      intro hnil
      rw [hnil] at hRm
      simp at hRm
      omega
    have hdec : R.dropLast ++ [R.getLast hne] = R := List.dropLast_append_getLast hne
    set R' := R.dropLast with hR'def
    set q := R.getLast hne with hqdef
    have hlrudec : R.map Prod.fst = R'.map Prod.fst ++ [q.1] := by
      rw [← hdec, List.map_append]
      rfl
    have hndk2 : (R'.map Prod.fst ++ [q.1]).Nodup := hlrudec ▸ hndk
    have hqnot : q.1 ∉ R'.map Prod.fst := by
      rcases List.nodup_append.mp hndk2 with ⟨_, _, hdisj⟩
      intro hmem
      exact hdisj hmem (List.mem_singleton_self q.1)
    have hR'len : R'.length = m - 1 := by
      rw [ hR'def, List.length_dropLast, hRm]
    have hgo : cacheUpdateGo st1.max_entries st1.lru_list.length st1.cache_map st1.lru_list
        = (R'.map toEntry, R'.map Prod.fst) := by
      rw [hcomp.1, hcomp.2.1, hcomp.2.2]
      have hflen : (R.map Prod.fst).length = (m - 1) + 1 := by
        rw [List.length_map, hRm]
        omega
      rw [hflen, cacheUpdateGo]
      have hcond : m ≤ (R.map toEntry).length ∧ R.map Prod.fst ≠ [] := by
        refine ⟨by rw [List.length_map, hRm], ?_⟩
        rw [hlrudec]
        simp
      rw [if_pos hcond]
      have hlast : (R.map Prod.fst).getLast? = some q.1 := by
        rw [hlrudec]
        exact List.getLast?_concat _
      rw [hlast]
      have hErase : mapErase (R.map toEntry) q.1 = R'.map toEntry := by
        rw [← hdec]
        exact mapErase_concat R' q hqnot
      have hdropl : (R.map Prod.fst).dropLast = R'.map Prod.fst := by
        rw [hlrudec]
        exact List.dropLast_concat
      show cacheUpdateGo m (m - 1) (mapErase (R.map toEntry) q.1)
          ((R.map Prod.fst).dropLast) = (R'.map toEntry, R'.map Prod.fst)
      rw [hErase, hdropl]
      exact cacheUpdateGo_noEvict m (m - 1) _ _
        (by rw [List.length_map, hR'len]; omega)
    have hcu1 : (cacheUpdate st1).cache_map = R'.map toEntry := by rw [hcuProj1, hgo]
    have hcu2 : (cacheUpdate st1).lru_list = R'.map Prod.fst := by rw [hcuProj2, hgo]
    have hfresh' : p.1 ∉ R'.map Prod.fst := by
      intro hmem
      apply hfresh
      rw [hlrudec]
      exact List.mem_append_left _ hmem
    have htake : (p :: R).take m = p :: R' := by
      obtain ⟨m', hm'⟩ : ∃ m', m = m' + 1 := ⟨m - 1, by omega⟩
      subst hm'
      rw [List.take_succ_cons]
      have h1 : R'.length = m' := by
        rw [ hR'len]
        omega
      rw [← hdec]
      exact congrArg (p :: ·) (List.take_left' h1)
    refine ⟨?_, ?_, ?_⟩
    · rw [hcu1, htake]
      rfl
    · rw [hcu2, htake, updateLRU, lruRemove_eq_of_not_mem hfresh']
      rfl
    · rw [hcuProj3, hcomp.1]

theorem take_cons_take (p : String × Response) (m : Nat) (l : List (String × Response)) :
    (p :: l.take m).take m = (p :: l).take m := by
  cases m with
  | zero => rfl
  | succ m' =>
    rw [List.take_succ_cons, List.take_succ_cons, List.take_take]
    have : min m' (m' + 1) = m' := by omega
    rw [this]

theorem putsFold_spec (pd : String → Int) (now : Int) (m : Nat) (hm : 1 ≤ m) (ci lc : Int)
    (ps : List (String × Response)) (hnd : (ps.map Prod.fst).Nodup)
    (hgood : ∀ p ∈ ps, p.2.cache_mode ≠ CACHE_NO_STORE ∧ isExpired pd now p.2 = false) :
    (putsFold pd now (emptyCache m ci lc) ps).cache_map = (recentOf m ps).map toEntry ∧
    (putsFold pd now (emptyCache m ci lc) ps).lru_list = (recentOf m ps).map Prod.fst ∧
    (putsFold pd now (emptyCache m ci lc) ps).max_entries = m := by
  revert hnd hgood
  induction ps using List.reverseRecOn with
  | nil =>
    intro _ _
    refine ⟨?_, ?_, rfl⟩
    · show ([] : List (String × CacheEntry)) = (recentOf m []).map toEntry
      rw [recentOf]
      simp
    · show ([] : List String) = (recentOf m []).map Prod.fst
      rw [recentOf]
      simp
  | append_singleton qs p ih =>
    intro hnd hgood
    have hmapp : (qs ++ [p]).map Prod.fst = qs.map Prod.fst ++ [p.1] := by
      rw [List.map_append]
      rfl
    rw [hmapp] at hnd
    rcases List.nodup_append.mp hnd with ⟨hnd1, _, hdisj⟩
    have hfreshq : p.1 ∉ qs.map Prod.fst := by
      intro hmem
      exact hdisj hmem (List.mem_singleton_self p.1)
    have hgoodq : ∀ p' ∈ qs, p'.2.cache_mode ≠ CACHE_NO_STORE ∧ isExpired pd now p'.2 = false :=
      fun p' hp' => hgood p' (List.mem_append_left _ hp')
    have hgoodp := hgood p (List.mem_append_right _ (List.mem_singleton_self p))
    have ihqs := ih hnd1 hgoodq
    have hps : putsFold pd now (emptyCache m ci lc) (qs ++ [p]) =
        Cache.put pd now (putsFold pd now (emptyCache m ci lc) qs) p.1 (some p.2) := by
      rw [putsFold, List.foldl_append]
      rfl
    have hRkeys : (recentOf m qs).map Prod.fst = (qs.map Prod.fst).reverse.take m := by
      rw [recentOf, List.map_take, List.map_reverse]
    have hndk : ((recentOf m qs).map Prod.fst).Nodup := by
      rw [hRkeys]
      exact List.Nodup.sublist (List.take_sublist m _) (List.nodup_reverse.mpr hnd1)
    have hlenR : (recentOf m qs).length ≤ m := by
      rw [recentOf, List.length_take]
      exact Nat.min_le_left m _
    have hsubq : ∀ q ∈ recentOf m qs, q ∈ qs := by
      intro q hq
      rw [recentOf] at hq
      exact List.mem_reverse.mp (List.mem_of_mem_take hq)
    have hfresh : p.1 ∉ (recentOf m qs).map Prod.fst := by
      intro hmem
      obtain ⟨q, hq, hq1⟩ := List.mem_map.mp hmem
      exact hfreshq (hq1 ▸ List.mem_map_of_mem Prod.fst (hsubq q hq))
    have hexpR : ∀ q ∈ recentOf m qs, isExpired pd now q.2 = false :=
      fun q hq => (hgoodq q (hsubq q hq)).2
    have hstep := put_fresh_step pd now m hm
      (putsFold pd now (emptyCache m ci lc) qs) (recentOf m qs) p
      ihqs.1 ihqs.2.1 ihqs.2.2 hndk hlenR hfresh hgoodp.1 hexpR
    have hrec : (p :: recentOf m qs).take m = recentOf m (qs ++ [p]) := by
      rw [recentOf, recentOf, List.reverse_append]
      show (p :: qs.reverse.take m).take m = ([p].reverse ++ qs.reverse).take m
      rw [show [p].reverse ++ qs.reverse = p :: qs.reverse from rfl]
      exact take_cons_take p m qs.reverse
    rw [hps]
    rw [hrec] at hstep
    exact hstep

theorem getsFold_spec (pd : String → Int) (now : Int) :
    ∀ (us : List String) (st : CacheState) (φ : String → Option Response),
    (∀ k, (mapFind st.cache_map k).map (fun e => e.response) = φ k) →
    (getsFold pd now st us).length = us.length ∧
    (∀ (i : Nat) (u : String), us[i]? = some u →
      (φ u = none → (getsFold pd now st us)[i]? = some (CacheStatus.NOT_IN_CACHE, none)) ∧
      (∀ r : Response, φ u = some r → ∃ c : CacheStatus,
        (getsFold pd now st us)[i]? = some (c, some r) ∧
        c ≠ CacheStatus.NOT_IN_CACHE)) := by
  intro us
  induction us with
  | nil =>
    intro st φ hφ
    refine ⟨rfl, ?_⟩
    intro i u hu
    simp at hu
  | cons u0 us ih =>
    intro st φ hφ
    have hφ2 : ∀ k, (mapFind (Cache.get pd now st u0).2.2.cache_map k).map (fun e => e.response) = φ k :=
      fun k => (get_preserves_resp pd now st u0 k).trans (hφ k)
    have hrec := ih (Cache.get pd now st u0).2.2 φ hφ2
    rw [getsFold]
    refine ⟨?_, ?_⟩
    · rw [List.length_cons, hrec.1, List.length_cons]
    · intro i u hu
      cases i with
      | zero =>
        rw [List.getElem?_cons_zero] at hu
        obtain rfl : u0 = u := by
          simpa using hu
        constructor
        · intro hnone
          have h0 := hφ u0
          rw [hnone] at h0
          have hmf : mapFind st.cache_map u0 = none := by
            rcases hmf2 : mapFind st.cache_map u0 with _ | e
            · rfl
            · rw [hmf2] at h0
              simp at h0
          have hg : Cache.get pd now st u0 = (CacheStatus.NOT_IN_CACHE, none, st) := by
            rw [Cache.get, hmf]
          rw [hg, List.getElem?_cons_zero]
        · intro r hsome
          have h0 := hφ u0
          rw [hsome] at h0
          rcases hmf2 : mapFind st.cache_map u0 with _ | e
          · rw [hmf2] at h0
            simp at h0
          · rw [hmf2] at h0
            have hresp : e.response = r := by
              simpa using h0
            have hfound := get_found pd now st u0 e hmf2
            have hcell : ((Cache.get pd now st u0).1, (Cache.get pd now st u0).2.1) =
                ((Cache.get pd now st u0).1, some r) := by
              rw [hfound.2, hresp]
            refine ⟨(Cache.get pd now st u0).1, ?_, hfound.1⟩
            rw [List.getElem?_cons_zero, hcell]
      | succ i =>
        rw [List.getElem?_cons_succ] at hu
        have := hrec.2 i u hu
        rw [List.getElem?_cons_succ]
        exact this

theorem eq_of_mem_keys_nodup {X : List (String × Response)}
    (hnd : (X.map Prod.fst).Nodup) {a b : String × Response}
    (ha : a ∈ X) (hb : b ∈ X) (hk : a.1 = b.1) : a = b := by
  induction X with
  | nil => exact absurd ha (List.not_mem_nil a)
  | cons x t ih =>
    rw [List.map_cons] at hnd
    rcases List.nodup_cons.mp hnd with ⟨hx, ht⟩
    rcases List.mem_cons.mp ha with rfl | ha2
    · rcases List.mem_cons.mp hb with rfl | hb2
      · rfl
      · exact absurd (hk ▸ List.mem_map_of_mem Prod.fst hb2) hx
    · rcases List.mem_cons.mp hb with rfl | hb2
      · exact absurd (hk ▸ List.mem_map_of_mem Prod.fst ha2) hx
      · exact ih ht ha2 hb2

theorem getElem_not_mem_take {X : List (String × Response)} (hnd : X.Nodup)
    {j mm : Nat} (hj : j < X.length) (hjm : mm ≤ j) : X[j] ∉ X.take mm := by
  intro hmem
  obtain ⟨j', hj', heq⟩ := List.getElem_of_mem hmem
  rw [List.getElem_take] at heq
  rw [List.length_take] at hj'
  have hj'len : j' < X.length := by omega
  have : j' = j := hnd.getElem_inj_iff.mp heq
  omega

/-- C6: starting from a fresh cache with max_entries = m ≥ 1, after putting
N > m pairwise-distinct urls with non-expired, non-NO_STORE responses and then
getting every url in order, the gets on the last m urls return a status other
than NOT_IN_CACHE together with their stored response, and the gets on the
first N − m urls return NOT_IN_CACHE (those entries were evicted from the LRU
tail). -/
theorem claim_C6 (pd : String → Int) (now : Int) (m : Nat) (hm : 1 ≤ m) (ci lc : Int)
    (ps : List (String × Response)) (hnd : (ps.map Prod.fst).Nodup)
    (hlen : m < ps.length)
    (hgood : ∀ p ∈ ps, p.2.cache_mode ≠ CACHE_NO_STORE ∧ isExpired pd now p.2 = false) :
    (getsFold pd now (putsFold pd now (emptyCache m ci lc) ps) (ps.map Prod.fst)).length
      = ps.length ∧
    ∀ i : Nat, i < ps.length →
      (i < ps.length - m →
        (getsFold pd now (putsFold pd now (emptyCache m ci lc) ps) (ps.map Prod.fst))[i]?
          = some (CacheStatus.NOT_IN_CACHE, none)) ∧
      (ps.length - m ≤ i →
        ∃ (c : CacheStatus) (p : String × Response), ps[i]? = some p ∧
          (getsFold pd now (putsFold pd now (emptyCache m ci lc) ps) (ps.map Prod.fst))[i]?
            = some (c, some p.2) ∧
          c ≠ CacheStatus.NOT_IN_CACHE) := by
  have hspec := putsFold_spec pd now m hm ci lc ps hnd hgood
  have hφ : ∀ k, (mapFind (putsFold pd now (emptyCache m ci lc) ps).cache_map k).map
      (fun e => e.response) =
      ((recentOf m ps).find? (fun q => decide (q.1 = k))).map (fun q => q.2) := by
    intro k
    rw [hspec.1, mapFind_map_toEntry]
  have hgets := getsFold_spec pd now (ps.map Prod.fst)
    (putsFold pd now (emptyCache m ci lc) ps)
    (fun k => ((recentOf m ps).find? (fun q => decide (q.1 = k))).map (fun q => q.2)) hφ
  have hRsub : ∀ q ∈ recentOf m ps, q ∈ ps := by
    intro q hq
    rw [recentOf] at hq
    exact List.mem_reverse.mp (List.mem_of_mem_take hq)
  have hRkeysnd : ((recentOf m ps).map Prod.fst).Nodup := by
    rw [recentOf, List.map_take, List.map_reverse]
    exact List.Nodup.sublist (List.take_sublist m _) (List.nodup_reverse.mpr hnd)
  have hpsnd : ps.Nodup := List.Nodup.of_map Prod.fst hnd
  refine ⟨?_, ?_⟩
  · rw [hgets.1, List.length_map]
  · intro i hi
    have hips : ps[i]? = some (ps[i]) := List.getElem?_eq_getElem hi
    have hu : (ps.map Prod.fst)[i]? = some ((ps[i]).1) := by
      rw [List.getElem?_map, hips]
      rfl
    have hrevlen : ps.length - 1 - i < ps.reverse.length := by
      rw [List.length_reverse]
      omega
    have hrev : ps.reverse[ps.length - 1 - i] = ps[i] := by
      rw [List.getElem_reverse]
      congr 1
      omega
    constructor
    · intro hlow
      apply (hgets.2 i (ps[i]).1 hu).1
      show ((recentOf m ps).find? (fun q => decide (q.1 = (ps[i]).1))).map
        (fun q => q.2) = none
      rw [Option.map_eq_none', List.find?_eq_none]
      intro q hq
      simp only [decide_eq_true_eq]
      intro hkey
      have hqps : q ∈ ps.reverse := List.mem_of_mem_take (by rw [recentOf] at hq; exact hq)
      have hpps : ps[i] ∈ ps.reverse := List.mem_reverse.mpr (List.getElem_mem hi)
      have hrevknd : (ps.reverse.map Prod.fst).Nodup := by
        rw [List.map_reverse]
        exact List.nodup_reverse.mpr hnd
      have hqp : q = ps[i] := eq_of_mem_keys_nodup hrevknd hqps hpps hkey
      have hnotin : ps[i] ∉ ps.reverse.take m := by
        rw [← hrev]
        exact getElem_not_mem_take (List.nodup_reverse.mpr hpsnd) hrevlen (by omega)
      rw [recentOf] at hq
      exact hnotin (hqp ▸ hq)
    · intro hhigh
      have hjm : ps.length - 1 - i < m := by omega
      have hmemtake : ps[i] ∈ recentOf m ps := by
        rw [recentOf]
        have hlt : ps.length - 1 - i < (ps.reverse.take m).length := by
          rw [List.length_take, List.length_reverse]
          omega
        have : (ps.reverse.take m)[ps.length - 1 - i] = ps[i] := by
          rw [List.getElem_take]
          exact hrev
        exact this ▸ List.getElem_mem hlt
      have hfound : (recentOf m ps).find? (fun q => decide (q.1 = (ps[i]).1))
          = some (ps[i]) := find?_key_of_mem hRkeysnd hmemtake
      have := (hgets.2 i (ps[i]).1 hu).2 (ps[i]).2 (by
        show ((recentOf m ps).find? (fun q => decide (q.1 = (ps[i]).1))).map
          (fun q => q.2) = some ((ps[i]).2)
        rw [hfound]
        rfl)
      obtain ⟨c, hc1, hc2⟩ := this
      exact ⟨c, ps[i], hips, hc1, hc2⟩

/-- Witness for C6: with max_entries = 1 and puts of "a" then "b", the get on
"a" returns NOT_IN_CACHE (evicted). -/
theorem claim_C6_witness :
    (getsFold wPd 3 (putsFold wPd 3 (emptyCache 1 300 0) [("a", wResp), ("b", wResp)])
      (([("a", wResp), ("b", wResp)] : List (String × Response)).map Prod.fst))[0]?
      = some (CacheStatus.NOT_IN_CACHE, none) :=
  ((claim_C6 wPd 3 1 (by decide) 300 0 [("a", wResp), ("b", wResp)] (by decide) (by decide)
    (by decide)).2 0 (by decide)).1 (by decide)

/-! ### Text utility lemmas for the round-trip proof -/

theorem splitStreamAux_no_delim (d : Char) :
    ∀ (s acc : List Char), d ∉ acc →
      ∀ l ∈ splitStreamAux d s acc, d ∉ l := by
  intro s
  induction s with
  | nil =>
    intro acc hacc l hl
    rw [splitStreamAux] at hl
    rcases List.mem_singleton.mp hl with rfl
    intro hmem
    exact hacc (List.mem_reverse.mp hmem)
  | cons c rest ih =>
    intro acc hacc l hl
    rw [splitStreamAux] at hl
    split at hl
    · next hc =>
      rcases List.mem_cons.mp hl with rfl | hl2
      · intro hmem
        exact hacc (List.mem_reverse.mp hmem)
      · split at hl2
        · exact absurd hl2 (List.not_mem_nil l)
        · exact ih [] (List.not_mem_nil d) l hl2
    · next hc =>
      refine ih (c :: acc) ?_ l hl
      intro hmem
      rcases List.mem_cons.mp hmem with rfl | hmem2
      · exact hc rfl
      · exact hacc hmem2

theorem splitStream_no_delim (d : Char) (s : List Char) :
    ∀ l ∈ splitStream d s, d ∉ l := by
  rw [splitStream]
  split
  · intro l hl
    exact absurd hl (List.not_mem_nil l)
  · exact splitStreamAux_no_delim d s [] (List.not_mem_nil d)

theorem splitStreamAux_cons_delim (d : Char) :
    ∀ (l acc rest : List Char), d ∉ l →
      splitStreamAux d (l ++ d :: rest) acc =
        (acc.reverse ++ l) :: (if rest.isEmpty then [] else splitStreamAux d rest []) := by
  intro l
  induction l with
  | nil =>
    intro acc rest _
    rw [List.nil_append, splitStreamAux, if_pos rfl, List.append_nil]
  | cons c t ih =>
    intro acc rest hl
    have hc : c ≠ d := fun he => hl (he ▸ List.mem_cons_self c t)
    have ht : d ∉ t := fun hm => hl (List.mem_cons_of_mem c hm)
    rw [List.cons_append, splitStreamAux, if_neg hc, ih (c :: acc) rest ht]
    rw [List.reverse_cons, List.append_assoc]
    rfl

theorem splitStream_cons_line (l rest : List Char) (hl : '\n' ∉ l) :
    splitStream '\n' (l ++ '\n' :: rest) = l :: splitStream '\n' rest := by
  rw [splitStream, splitStream]
  have hne : (l ++ '\n' :: rest).isEmpty = false := by
    cases l <;> rfl
  rw [hne]
  simp only [Bool.false_eq_true, if_false]
  rw [splitStreamAux_cons_delim '\n' l [] rest hl, List.reverse_nil, List.nil_append]

theorem takeWhile_append_all {p : Char → Bool} :
    ∀ (l rest : List Char), (∀ c ∈ l, p c = true) →
      (l ++ rest).takeWhile p = l ++ rest.takeWhile p := by
  intro l
  induction l with
  | nil => intro rest _; rfl
  | cons c t ih =>
    intro rest h
    rw [List.cons_append, List.takeWhile_cons, h c (List.mem_cons_self c t), if_pos rfl]
    rw [List.cons_append, ih rest (fun x hx => h x (List.mem_cons_of_mem c hx))]

theorem dropWhile_append_all {p : Char → Bool} :
    ∀ (l rest : List Char), (∀ c ∈ l, p c = true) →
      (l ++ rest).dropWhile p = rest.dropWhile p := by
  intro l
  induction l with
  | nil => intro rest _; rfl
  | cons c t ih =>
    intro rest h
    rw [List.cons_append, List.dropWhile_cons, h c (List.mem_cons_self c t)]
    rw [if_pos rfl]
    exact ih rest (fun x hx => h x (List.mem_cons_of_mem c hx))

theorem takeWhile_head_false {p : Char → Bool} (l : List Char)
    (h : ∀ c, l.head? = some c → p c = false) : l.takeWhile p = [] := by
  cases l with
  | nil => rfl
  | cons c t =>
    rw [List.takeWhile_cons, h c rfl]
    rfl

theorem dropWhile_head_false {p : Char → Bool} (l : List Char)
    (h : ∀ c, l.head? = some c → p c = false) : l.dropWhile p = l := by
  cases l with
  | nil => rfl
  | cons c t =>
    rw [List.dropWhile_cons, h c rfl]
    rfl

theorem digitChar_props {d : Nat} (h : d < 10) :
    (Char.ofNat (48 + d)).toNat = 48 + d ∧ isDigitC (Char.ofNat (48 + d)) = true := by
  interval_cases d <;> exact ⟨rfl, rfl⟩

theorem not_space_of_digit {c : Char} (h : isDigitC c = true) : isSpaceC c = false := by
  rcases hc : isSpaceC c with _ | _
  · rfl
  · exfalso
    rw [isSpaceC] at hc
    rw [isDigitC] at h
    rcases (by simpa using hc :
        ((((c = ' ' ∨ c = '\t') ∨ c = '\n') ∨ c = '\x0b') ∨ c = '\x0c') ∨ c = '\r')
      with ((((h1|h1)|h1)|h1)|h1)|h1 <;> (subst h1; simp at h)

theorem digit_ne {c : Char} (h : isDigitC c = true) :
    c ≠ '-' ∧ c ≠ '+' ∧ c ≠ '\n' := by
  rw [isDigitC] at h
  have h2 : 48 ≤ c.toNat ∧ c.toNat ≤ 57 := by simpa using h
  refine ⟨?_, ?_, ?_⟩ <;> (intro he; subst he; exact absurd h2 (by decide))

theorem natDigitsGo_props : ∀ (fuel n : Nat), n < fuel →
    natDigitsGo fuel n ≠ [] ∧ (∀ c ∈ natDigitsGo fuel n, isDigitC c = true) ∧
    digitsVal (natDigitsGo fuel n) = n := by
  intro fuel
  induction fuel with
  | zero => intro n h; omega
  | succ fuel ih =>
    intro n h
    rw [natDigitsGo]
    split
    · next h10 =>
      refine ⟨by simp, ?_, ?_⟩
      · intro c hc
        rcases List.mem_singleton.mp hc with rfl
        exact (digitChar_props h10).2
      · rw [digitsVal, List.foldl_cons, List.foldl_nil, (digitChar_props h10).1]
        omega
    · next h10 =>
      have hdiv : n / 10 < fuel := by omega
      have hmod : n % 10 < 10 := Nat.mod_lt n (by omega)
      obtain ⟨hne, hdig, hval⟩ := ih (n / 10) hdiv
      refine ⟨by simp, ?_, ?_⟩
      · intro c hc
        rcases List.mem_append.mp hc with hc1 | hc1
        · exact hdig c hc1
        · rcases List.mem_singleton.mp hc1 with rfl
          exact (digitChar_props hmod).2
      · rw [digitsVal, List.foldl_append]
        rw [digitsVal] at hval
        rw [hval, List.foldl_cons, List.foldl_nil, (digitChar_props hmod).1]
        omega

theorem natDigits_props (n : Nat) :
    natDigits n ≠ [] ∧ (∀ c ∈ natDigits n, isDigitC c = true) ∧
    digitsVal (natDigits n) = n :=
  natDigitsGo_props (n + 1) n (Nat.lt_succ_self n)

theorem readDigitsOpt_append (n : Nat) (rest : List Char)
    (hrest : ∀ c, rest.head? = some c → isDigitC c = false) :
    readDigitsOpt (natDigits n ++ rest) = some (n, rest) := by
  obtain ⟨hne, hdig, hval⟩ := natDigits_props n
  simp only [readDigitsOpt]
  rw [takeWhile_append_all (natDigits n) rest hdig,
    takeWhile_head_false rest hrest, List.append_nil,
    dropWhile_append_all (natDigits n) rest hdig, dropWhile_head_false rest hrest]
  have hemp : (natDigits n).isEmpty = false := by
    cases hh : natDigits n with
    | nil => exact absurd hh hne
    | cons a t => rfl
  rw [hemp]
  simp only [Bool.false_eq_true, if_false]
  rw [hval]

theorem readIntFrom_space (s : List Char) : readIntFrom (' ' :: s) = readIntFrom s := by
  simp only [readIntFrom]
  rw [List.dropWhile_cons, show isSpaceC ' ' = true from rfl, if_pos rfl]

theorem readIntFrom_cons_shape (c : Char) (u : List Char) (h : isSpaceC c = false) :
    readIntFrom (c :: u) =
      if c = '-' then (readDigitsOpt u).map (fun p => (-(p.1 : Int), p.2))
      else if c = '+' then (readDigitsOpt u).map (fun p => ((p.1 : Int), p.2))
      else (readDigitsOpt (c :: u)).map (fun p => ((p.1 : Int), p.2)) := by
  simp only [readIntFrom]
  rw [List.dropWhile_cons, h]
  simp only [Bool.false_eq_true, if_false]

theorem readIntFrom_int (code : Int) (rest : List Char)
    (hrest1 : ∀ c, rest.head? = some c → isDigitC c = false) :
    readIntFrom (' ' :: intToChars code ++ rest) = some (code, rest) := by
  rw [List.cons_append, readIntFrom_space]
  by_cases hneg : code < 0
  · rw [intToChars, if_pos hneg, List.cons_append]
    rw [readIntFrom_cons_shape '-' _ rfl, if_pos rfl]
    rw [readDigitsOpt_append code.natAbs rest hrest1, Option.map_some']
    have h2 : -(code.natAbs : Int) = code := by omega
    rw [h2]
  · rw [intToChars, if_neg hneg]
    obtain ⟨hne, hdig, _⟩ := natDigits_props code.toNat
    obtain ⟨c0, cs, hcs⟩ : ∃ c0 cs, natDigits code.toNat = c0 :: cs := by
      cases hh : natDigits code.toNat with
      | nil => exact absurd hh hne
      | cons a t => exact ⟨a, t, rfl⟩
    have hc0 : isDigitC c0 = true := hdig c0 (hcs ▸ List.mem_cons_self c0 cs)
    rw [hcs, List.cons_append]
    rw [readIntFrom_cons_shape c0 _ (not_space_of_digit hc0)]
    rw [if_neg (digit_ne hc0).1, if_neg (digit_ne hc0).2.1]
    rw [← List.cons_append, ← hcs]
    rw [readDigitsOpt_append code.toNat rest hrest1, Option.map_some']
    have h2 : (code.toNat : Int) = code := Int.toNat_of_nonneg (by omega)
    rw [h2]

theorem intToChars_no_newline (code : Int) : '\n' ∉ intToChars code := by
  rw [intToChars]
  split
  · intro hmem
    rcases List.mem_cons.mp hmem with h1 | h1
    · exact absurd h1 (by decide)
    · exact (digit_ne ((natDigits_props _).2.1 _ h1)).2.2 rfl
  · intro hmem
    exact (digit_ne ((natDigits_props _).2.1 _ hmem)).2.2 rfl

theorem parseStatusLine_emit (ver msg : String) (code : Int)
    (hver : ∀ c ∈ ver.data, isSpaceC c = false)
    (hverCase : ver.data = [] → code = 0 ∧ msg = "") :
    (parseStatusLine (ver.data ++ (' ' :: intToChars code ++ (' ' :: msg.data ++ ['\r'])))).2.1
      = code := by
  by_cases hv : ver.data = []
  · obtain ⟨hc0, hm0⟩ := hverCase hv
    subst hc0
    subst hm0
    rw [hv]
    decide
  · obtain ⟨v0, vt, hcons⟩ : ∃ v0 vt, ver.data = v0 :: vt := by
      cases hh : ver.data with
      | nil => exact absurd hh hv
      | cons a t => exact ⟨a, t, rfl⟩
    have hver2 : ∀ c ∈ ver.data, (!isSpaceC c) = true := by
      intro c hc
      rw [hver c hc]
      rfl
    have hline : (ver.data ++ (' ' :: intToChars code ++ (' ' :: msg.data ++ ['\r']))).dropWhile
        isSpaceC = ver.data ++ (' ' :: intToChars code ++ (' ' :: msg.data ++ ['\r'])) := by
      apply dropWhile_head_false
      intro c hc
      rw [hcons, List.cons_append] at hc
      rcases Option.some_inj.mp hc with rfl
      apply hver
      rw [hcons]
      exact List.mem_cons_self v0 vt
    have htake : (ver.data ++ (' ' :: intToChars code ++ (' ' :: msg.data ++ ['\r']))).takeWhile
        (fun c => !isSpaceC c) = ver.data := by
      rw [takeWhile_append_all ver.data _ hver2, List.cons_append]
      rw [takeWhile_head_false _ (by
        intro x hx
        rcases Option.some_inj.mp hx with rfl
        rfl)]
      rw [List.append_nil]
    have hdropw : (ver.data ++ (' ' :: intToChars code ++ (' ' :: msg.data ++ ['\r']))).dropWhile
        (fun c => !isSpaceC c) = ' ' :: intToChars code ++ (' ' :: msg.data ++ ['\r']) := by
      rw [dropWhile_append_all ver.data _ hver2, List.cons_append]
      rw [dropWhile_head_false _ (by
        intro x hx
        rcases Option.some_inj.mp hx with rfl
        rfl)]
    have hread : readIntFrom (' ' :: intToChars code ++ (' ' :: msg.data ++ ['\r']))
        = some (code, ' ' :: msg.data ++ ['\r']) := by
      apply readIntFrom_int
      intro c hc
      rw [List.cons_append] at hc
      rcases Option.some_inj.mp hc with rfl
      rfl
    have hemp : ver.data.isEmpty = false := by
      rw [hcons]
      rfl
    simp only [parseStatusLine]
    rw [hline, htake, hdropw, hread, hemp]
    rfl

end ProxyModel

namespace ProxyModel

/-! ### Trim lemmas for the round-trip proof -/

theorem head?_dropWhile_false {p : Char → Bool} :
    ∀ (l : List Char) {a : Char}, (l.dropWhile p).head? = some a → p a = false := by
  intro l
  induction l with
  | nil =>
    intro a h
    exact absurd h (by simp)
  | cons c t ih =>
    intro a h
    rw [List.dropWhile_cons] at h
    split at h
    · exact ih h
    · next hp =>
      have hca : c = a := by simpa using h
      subst hca
      cases hb : p c with
      | false => rfl
      | true => exact absurd hb hp

theorem mem_of_dropWhile {p : Char → Bool} :
    ∀ {l : List Char} {x : Char}, x ∈ l.dropWhile p → x ∈ l := by
  intro l
  induction l with
  | nil =>
    intro x h
    exact absurd h (List.not_mem_nil x)
  | cons c t ih =>
    intro x h
    rw [List.dropWhile_cons] at h
    split at h
    · exact List.mem_cons_of_mem c (ih h)
    · exact h

theorem dropTrailing_exists_suffix (c : Char) (l : List Char) :
    ∃ sfx, dropTrailing c l ++ sfx = l := by
  refine ⟨(l.reverse.takeWhile (fun x => decide (x = c))).reverse, ?_⟩
  rw [dropTrailing, ← List.reverse_append, List.takeWhile_append_dropWhile,
    List.reverse_reverse]

theorem head_dropTrailing (c : Char) (l : List Char) {x : Char}
    (h : (dropTrailing c l).head? = some x) : l.head? = some x := by
  obtain ⟨sfx, hsfx⟩ := dropTrailing_exists_suffix c l
  rw [← hsfx]
  cases hd : dropTrailing c l with
  | nil =>
    rw [hd] at h
    exact absurd h (by simp)
  | cons a t =>
    rw [hd] at h
    have hax : a = x := by simpa using h
    subst hax
    simp

theorem getLast_dropTrailing (c : Char) (l : List Char) :
    (dropTrailing c l).getLast? ≠ some c := by
  rw [dropTrailing, List.getLast?_reverse]
  intro h
  have := head?_dropWhile_false _ h
  simp at this

theorem mem_dropTrailing {c x : Char} {l : List Char}
    (h : x ∈ dropTrailing c l) : x ∈ l := by
  obtain ⟨sfx, hsfx⟩ := dropTrailing_exists_suffix c l
  rw [← hsfx]
  exact List.mem_append_left _ h

theorem mem_trimValue {x : Char} {l : List Char} (h : x ∈ trimValue l) : x ∈ l :=
  mem_of_dropWhile (mem_dropTrailing h)

theorem head_trimValue {l : List Char} {x : Char}
    (h : (trimValue l).head? = some x) : x ≠ ' ' := by
  rw [trimValue] at h
  have h2 := head_dropTrailing '\r' _ h
  have h3 := head?_dropWhile_false _ h2
  simpa using h3

theorem getLast_trimValue (l : List Char) : (trimValue l).getLast? ≠ some '\r' :=
  getLast_dropTrailing '\r' _

theorem trimValue_emit (val : List Char)
    (h1 : ∀ c, val.head? = some c → c ≠ ' ')
    (h2 : val.getLast? ≠ some '\r') :
    trimValue (' ' :: val ++ ['\r']) = val := by
  rw [trimValue]
  have hdw : (' ' :: val ++ ['\r']).dropWhile (fun x => decide (x = ' ')) = val ++ ['\r'] := by
    rw [List.cons_append, List.dropWhile_cons,
      show (decide (' ' = ' ')) = true from rfl, if_pos rfl]
    apply dropWhile_head_false
    intro c hc
    cases hv : val with
    | nil =>
      rw [hv, List.nil_append] at hc
      have : '\r' = c := by simpa using hc
      subst this
      rfl
    | cons a t =>
      rw [hv, List.cons_append] at hc
      have hac : a = c := by simpa using hc
      have hcn : c ≠ ' ' := h1 c (by rw [hv]; show some a = some c; rw [hac])
      simpa using hcn
  rw [hdw, dropTrailing, List.reverse_append,
    show (['\r'] : List Char).reverse = ['\r'] from rfl, List.singleton_append,
    List.dropWhile_cons, show (decide ('\r' = '\r')) = true from rfl, if_pos rfl]
  rw [dropWhile_head_false _ (by
    intro c hc
    rw [List.head?_reverse] at hc
    cases hcr : decide (c = '\r') with
    | false => rfl
    | true =>
      rw [of_decide_eq_true hcr] at hc
      exact absurd hc h2)]
  rw [List.reverse_reverse]

end ProxyModel

namespace ProxyModel

/-! ### insertSorted and hfind lemmas -/

theorem hfind_insertSorted_self :
    ∀ (m : List (String × String)) (p : String × String),
      hfind (insertSorted m p) p.1 = some p.2 := by
  intro m
  induction m with
  | nil =>
    intro p
    rw [insertSorted]
    show (if p.1 = p.1 then some p.2 else none) = some p.2
    rw [if_pos rfl]
  | cons q t ih =>
    intro p
    rw [insertSorted]
    by_cases h1 : p.1 < q.1
    · rw [if_pos h1]
      show (if p.1 = p.1 then some p.2 else hfind (q :: t) p.1) = some p.2
      rw [if_pos rfl]
    · rw [if_neg h1]
      by_cases h2 : p.1 = q.1
      · rw [if_pos h2]
        show (if p.1 = p.1 then some p.2 else hfind t p.1) = some p.2
        rw [if_pos rfl]
      · rw [if_neg h2]
        show (if q.1 = p.1 then some q.2 else hfind (insertSorted t p) p.1) = some p.2
        rw [if_neg (fun he => h2 he.symm)]
        exact ih p

theorem hfind_insertSorted_ne :
    ∀ (m : List (String × String)) (p : String × String) (k : String), k ≠ p.1 →
      hfind (insertSorted m p) k = hfind m k := by
  intro m
  induction m with
  | nil =>
    intro p k hk
    rw [insertSorted]
    show (if p.1 = k then some p.2 else none) = none
    rw [if_neg (fun he => hk he.symm)]
  | cons q t ih =>
    intro p k hk
    rw [insertSorted]
    by_cases h1 : p.1 < q.1
    · rw [if_pos h1]
      show (if p.1 = k then some p.2 else hfind (q :: t) k) = hfind (q :: t) k
      rw [if_neg (fun he => hk he.symm)]
    · rw [if_neg h1]
      by_cases h2 : p.1 = q.1
      · rw [if_pos h2]
        show (if p.1 = k then some p.2 else hfind t k)
          = (if q.1 = k then some q.2 else hfind t k)
        rw [if_neg (fun he => hk he.symm), if_neg (fun he => hk ((h2.trans he).symm))]
      · rw [if_neg h2]
        show (if q.1 = k then some q.2 else hfind (insertSorted t p) k)
          = (if q.1 = k then some q.2 else hfind t k)
        by_cases h3 : q.1 = k
        · rw [if_pos h3, if_pos h3]
        · rw [if_neg h3, if_neg h3]
          exact ih p k hk

theorem mem_insertSorted :
    ∀ {m : List (String × String)} {p q : String × String},
      q ∈ insertSorted m p → q = p ∨ q ∈ m := by
  intro m
  induction m with
  | nil =>
    intro p q h
    rw [insertSorted] at h
    rcases List.mem_singleton.mp h with rfl
    exact Or.inl rfl
  | cons r t ih =>
    intro p q h
    rw [insertSorted] at h
    by_cases h1 : p.1 < r.1
    · rw [if_pos h1] at h
      rcases List.mem_cons.mp h with rfl | h2
      · exact Or.inl rfl
      · exact Or.inr h2
    · rw [if_neg h1] at h
      by_cases h2 : p.1 = r.1
      · rw [if_pos h2] at h
        rcases List.mem_cons.mp h with rfl | h3
        · exact Or.inl rfl
        · exact Or.inr (List.mem_cons_of_mem r h3)
      · rw [if_neg h2] at h
        rcases List.mem_cons.mp h with rfl | h3
        · exact Or.inr (List.mem_cons_self q t)
        · rcases ih h3 with h4 | h4
          · exact Or.inl h4
          · exact Or.inr (List.mem_cons_of_mem r h4)

theorem pairwise_insertSorted (p : String × String) :
    ∀ (m : List (String × String)), m.Pairwise (fun a b => a.1 < b.1) →
      (insertSorted m p).Pairwise (fun a b => a.1 < b.1) := by
  intro m
  induction m with
  | nil =>
    intro _
    rw [insertSorted]
    exact List.pairwise_singleton _ _
  | cons q t ih =>
    intro h
    rw [List.pairwise_cons] at h
    rw [insertSorted]
    by_cases h1 : p.1 < q.1
    · rw [if_pos h1, List.pairwise_cons]
      refine ⟨?_, List.pairwise_cons.mpr h⟩
      intro b hb
      rcases List.mem_cons.mp hb with rfl | hb2
      · exact h1
      · exact lt_trans h1 (h.1 b hb2)
    · rw [if_neg h1]
      by_cases h2 : p.1 = q.1
      · rw [if_pos h2, List.pairwise_cons]
        refine ⟨?_, h.2⟩
        intro b hb
        have hb3 := h.1 b hb
        rw [← h2] at hb3
        exact hb3
      · rw [if_neg h2, List.pairwise_cons]
        refine ⟨?_, ih h.2⟩
        intro b hb
        rcases mem_insertSorted hb with rfl | hb2
        · rcases lt_trichotomy b.1 q.1 with h3 | h3 | h3
          · exact absurd h3 h1
          · exact absurd h3 h2
          · exact h3
        · exact h.1 b hb2

theorem insertSorted_append_of_lt (p : String × String) :
    ∀ (m : List (String × String)), (∀ q ∈ m, q.1 < p.1) →
      insertSorted m p = m ++ [p] := by
  intro m
  induction m with
  | nil =>
    intro _
    rw [insertSorted]
    rfl
  | cons q t ih =>
    intro h
    have hq := h q (List.mem_cons_self q t)
    rw [insertSorted, if_neg (lt_asymm hq), if_neg (ne_of_gt hq)]
    rw [ih (fun r hr => h r (List.mem_cons_of_mem q hr))]
    rfl

theorem foldl_insertSorted_sorted :
    ∀ (hs m : List (String × String)), (m ++ hs).Pairwise (fun a b => a.1 < b.1) →
      hs.foldl (fun acc q => insertSorted acc q) m = m ++ hs := by
  intro hs
  induction hs with
  | nil =>
    intro m _
    rw [List.foldl_nil, List.append_nil]
  | cons p t ih =>
    intro m h
    rw [List.foldl_cons]
    have hlt : ∀ q ∈ m, q.1 < p.1 := by
      intro q hq
      exact (List.pairwise_append.mp h).2.2 q hq p (List.mem_cons_self p t)
    rw [insertSorted_append_of_lt p m hlt]
    have h2 : ((m ++ [p]) ++ t).Pairwise (fun a b => a.1 < b.1) := by
      rw [List.append_assoc, List.singleton_append]
      exact h
    rw [ih (m ++ [p]) h2, List.append_assoc, List.singleton_append]

theorem keys_nodup_of_sorted (m : List (String × String))
    (h : m.Pairwise (fun a b => a.1 < b.1)) : (m.map Prod.fst).Nodup :=
  List.Pairwise.map Prod.fst (fun _ _ hlt => ne_of_lt hlt) h

theorem mem_of_hfind :
    ∀ {m : List (String × String)} {k : String} {v : String},
      hfind m k = some v → (k, v) ∈ m := by
  intro m
  induction m with
  | nil =>
    intro k v h
    exact absurd h (by rw [hfind]; exact Option.noConfusion)
  | cons p t ih =>
    intro k v h
    rw [hfind] at h
    split at h
    · next heq =>
      have hv : p.2 = v := Option.some_inj.mp h
      have hkv : (k, v) = p := by
        rw [← heq, ← hv]
      rw [hkv]
      exact List.mem_cons_self p t
    · exact List.mem_cons_of_mem p (ih h)

theorem hfind_of_mem_nodup :
    ∀ {m : List (String × String)} {p : String × String},
      (m.map Prod.fst).Nodup → p ∈ m → hfind m p.1 = some p.2 := by
  intro m
  induction m with
  | nil =>
    intro p _ hp
    exact absurd hp (List.not_mem_nil p)
  | cons q t ih =>
    intro p hnd hp
    rw [List.map_cons, List.nodup_cons] at hnd
    rw [hfind]
    rcases List.mem_cons.mp hp with rfl | hp2
    · rw [if_pos rfl]
    · rw [if_neg (fun he : q.1 = p.1 =>
        hnd.1 (he.symm ▸ List.mem_map_of_mem Prod.fst hp2))]
      exact ih hnd.2 hp2

theorem hfind_none_not_mem :
    ∀ {m : List (String × String)} {k : String}, hfind m k = none →
      ∀ p ∈ m, p.1 ≠ k := by
  intro m
  induction m with
  | nil =>
    intro k _ p hp
    exact absurd hp (List.not_mem_nil p)
  | cons q t ih =>
    intro k h p hp
    rw [hfind] at h
    split at h
    · exact absurd h (Option.noConfusion)
    · next hq =>
      rcases List.mem_cons.mp hp with rfl | hp2
      · exact hq
      · exact ih h p hp2

/-! ### Header line emission -/

theorem findIdx?_append_cons {p : Char → Bool} :
    ∀ (l1 : List Char) (c0 : Char) (l2 : List Char),
      (∀ c ∈ l1, p c = false) → p c0 = true →
      (l1 ++ c0 :: l2).findIdx? p = some l1.length := by
  intro l1
  induction l1 with
  | nil =>
    intro c0 l2 _ hc0
    rw [List.nil_append, List.findIdx?_cons, hc0, if_pos rfl]
    rfl
  | cons c t ih =>
    intro c0 l2 h hc0
    rw [List.cons_append, List.findIdx?_cons, h c (List.mem_cons_self c t)]
    simp only [Bool.false_eq_true, if_false]
    rw [List.findIdx?_succ, ih c0 l2 (fun x hx => h x (List.mem_cons_of_mem c hx)) hc0]
    rfl

theorem emitLine_mem_colon (p : String × String) : ':' ∈ emitLine p := by
  rw [emitLine]
  exact List.mem_append_left _ (List.mem_append_right _ (List.mem_cons_self _ _))

theorem emitLine_ne (p : String × String) : ¬(emitLine p = ['\r'] ∨ emitLine p = []) := by
  intro h
  have hc := emitLine_mem_colon p
  rcases h with h | h
  · rw [h] at hc
    exact absurd hc (by decide)
  · rw [h] at hc
    exact List.not_mem_nil ':' hc

theorem emitLine_eq (p : String × String) :
    emitLine p = p.1.data ++ (':' :: (' ' :: (p.2.data ++ ['\r']))) := by
  rw [emitLine]
  simp [List.append_assoc]

theorem processHeaderLine_emit (st : HeadState) (p : String × String)
    (hk : ':' ∉ p.1.data)
    (hv1 : ∀ c, p.2.data.head? = some c → c ≠ ' ')
    (hv2 : p.2.data.getLast? ≠ some '\r')
    (hCL : p.1 = "Content-Length" → (stoiOpt p.2.data).isSome = true) :
    processHeaderLine (emitLine p) st = some (stepH st p) := by
  obtain ⟨k, v⟩ := p
  have hfid : (k.data ++ (':' :: (' ' :: (v.data ++ ['\r'])))).findIdx?
      (fun c => decide (c = ':')) = some k.data.length :=
    findIdx?_append_cons k.data ':' _
      (fun c hc => decide_eq_false (fun he => hk (he ▸ hc))) (by decide)
  have htake : (k.data ++ (':' :: (' ' :: (v.data ++ ['\r'])))).take k.data.length
      = k.data := List.take_left' rfl
  have hdrop : (k.data ++ (':' :: (' ' :: (v.data ++ ['\r'])))).drop (k.data.length + 1)
      = ' ' :: (v.data ++ ['\r']) := by
    have hsplit : k.data ++ (':' :: (' ' :: (v.data ++ ['\r'])))
        = (k.data ++ [':']) ++ (' ' :: (v.data ++ ['\r'])) := by
      rw [List.append_assoc]
      rfl
    rw [hsplit]
    exact List.drop_left' (by simp)
  have htrim : trimValue (' ' :: (v.data ++ ['\r'])) = v.data := trimValue_emit v.data hv1 hv2
  rw [emitLine_eq]
  show processHeaderLine (k.data ++ (':' :: (' ' :: (v.data ++ ['\r'])))) st
    = some (stepH st (k, v))
  rw [processHeaderLine, hfid]
  dsimp only
  rw [htake, hdrop, htrim]
  by_cases h1 : k = "Transfer-Encoding"
  · subst h1
    by_cases h2 : hasSub "chunked".data v.data = true
    · simp [stepH, h2]
    · simp [stepH, h2]
  · have h1d : ¬(k.data = ("Transfer-Encoding" : String).data) :=
      fun hh => h1 (String.ext hh)
    by_cases h3 : k = "Content-Length"
    · subst h3
      obtain ⟨n, hn⟩ := Option.isSome_iff_exists.mp (hCL rfl)
      simp [stepH, hn]
    · have h3d : ¬(k.data = ("Content-Length" : String).data) :=
        fun hh => h3 (String.ext hh)
      simp [stepH, h1, h3, h1d, h3d]

theorem parseHeaders_emit :
    ∀ (hs : List (String × String)) (st : HeadState) (bodyLines : List (List Char)),
      (∀ p ∈ hs, ':' ∉ p.1.data ∧
        (∀ c, p.2.data.head? = some c → c ≠ ' ') ∧ p.2.data.getLast? ≠ some '\r' ∧
        (p.1 = "Content-Length" → (stoiOpt p.2.data).isSome = true)) →
      parseHeaders (hs.map emitLine ++ ['\r'] :: bodyLines) st
        = some (hs.foldl stepH st, bodyLines) := by
  intro hs
  induction hs with
  | nil =>
    intro st bodyLines _
    rw [List.map_nil, List.nil_append, parseHeaders, if_pos (Or.inl rfl)]
    rfl
  | cons p t ih =>
    intro st bodyLines h
    obtain ⟨hk, hv1, hv2, hCL⟩ := h p (List.mem_cons_self p t)
    rw [List.map_cons, List.cons_append, parseHeaders, if_neg (emitLine_ne p)]
    rw [processHeaderLine_emit st p hk hv1 hv2 hCL]
    exact ih (stepH st p) bodyLines (fun q hq => h q (List.mem_cons_of_mem p hq))

end ProxyModel

namespace ProxyModel

/-! ### Header fold characterizations -/

theorem stepH_header (st : HeadState) (p : String × String) :
    (stepH st p).header = insertSorted st.header p := by
  rw [stepH]
  split
  · rfl
  · split
    · rfl
    · rfl

theorem foldl_stepH_header :
    ∀ (hs : List (String × String)) (st : HeadState),
      (hs.foldl stepH st).header
        = hs.foldl (fun m q => insertSorted m q) st.header := by
  intro hs
  induction hs with
  | nil =>
    intro st
    rfl
  | cons p t ih =>
    intro st
    rw [List.foldl_cons, List.foldl_cons, ih, stepH_header]

theorem stepH_chunked (st : HeadState) (p : String × String) :
    (stepH st p).is_chunked
      = (st.is_chunked
          || (decide (p.1 = "Transfer-Encoding") && hasSub "chunked".data p.2.data)) := by
  rw [stepH]
  by_cases h1 : p.1 = "Transfer-Encoding"
  · by_cases h2 : hasSub "chunked".data p.2.data = true
    · rw [if_pos ⟨h1, h2⟩, decide_eq_true h1, h2, Bool.true_and, Bool.or_true]
    · have h2f : hasSub "chunked".data p.2.data = false := Bool.eq_false_iff.mpr h2
      rw [if_neg (fun hh => h2 hh.2), h2f, Bool.and_false, Bool.or_false]
      split
      · rfl
      · rfl
  · have h1f : decide (p.1 = "Transfer-Encoding") = false := decide_eq_false h1
    rw [if_neg (fun hh => h1 hh.1), h1f, Bool.false_and, Bool.or_false]
    split
    · rfl
    · rfl

theorem foldl_stepH_chunked :
    ∀ (hs : List (String × String)) (st : HeadState),
      (hs.foldl stepH st).is_chunked
        = (st.is_chunked || hs.any
            (fun p => decide (p.1 = "Transfer-Encoding") && hasSub "chunked".data p.2.data)) := by
  intro hs
  induction hs with
  | nil =>
    intro st
    rw [List.foldl_nil, List.any_nil, Bool.or_false]
  | cons p t ih =>
    intro st
    rw [List.foldl_cons, ih, stepH_chunked, List.any_cons, Bool.or_assoc]

theorem stepH_content (st : HeadState) (p : String × String) :
    (stepH st p).content_length
      = if p.1 = "Content-Length" then (stoiOpt p.2.data).getD 0
        else st.content_length := by
  rw [stepH]
  by_cases h3 : p.1 = "Content-Length"
  · rw [if_neg (fun hh => absurd (hh.1.symm.trans h3) (by decide))]
    rw [if_pos h3, if_pos h3]
  · have hR : (if p.1 = "Content-Length" then (stoiOpt p.2.data).getD 0
        else st.content_length) = st.content_length := if_neg h3
    rw [hR]
    split
    · rfl
    · rfl

theorem foldl_stepH_content_none :
    ∀ (hs : List (String × String)) (st : HeadState),
      (∀ p ∈ hs, p.1 ≠ "Content-Length") →
      (hs.foldl stepH st).content_length = st.content_length := by
  intro hs
  induction hs with
  | nil =>
    intro st _
    rfl
  | cons p t ih =>
    intro st h
    rw [List.foldl_cons, ih (stepH st p) (fun q hq => h q (List.mem_cons_of_mem p hq))]
    rw [stepH_content, if_neg (h p (List.mem_cons_self p t))]

theorem foldl_stepH_content_last (l1 l2 : List (String × String)) (p : String × String)
    (st : HeadState) (hp : p.1 = "Content-Length")
    (hl2 : ∀ q ∈ l2, q.1 ≠ "Content-Length") :
    ((l1 ++ p :: l2).foldl stepH st).content_length = (stoiOpt p.2.data).getD 0 := by
  rw [List.foldl_append, List.foldl_cons, foldl_stepH_content_none l2 _ hl2]
  rw [stepH_content, if_pos hp]

/-! ### Serialized line structure -/

theorem headerChars_cons (p : String × String) (t : List (String × String)) :
    headerChars (p :: t) = emitLine p ++ '\n' :: headerChars t := by
  rw [headerChars, emitLine]
  simp [List.append_assoc]

theorem splitStream_headerChars :
    ∀ (hs : List (String × String)) (rest : List Char),
      (∀ p ∈ hs, '\n' ∉ p.1.data ∧ '\n' ∉ p.2.data) →
      splitStream '\n' (headerChars hs ++ ('\r' :: '\n' :: rest))
        = hs.map emitLine ++ ['\r'] :: splitStream '\n' rest := by
  intro hs
  induction hs with
  | nil =>
    intro rest _
    rw [headerChars, List.nil_append, List.map_nil, List.nil_append]
    exact splitStream_cons_line ['\r'] rest (by decide)
  | cons p t ih =>
    intro rest h
    obtain ⟨hk, hv⟩ := h p (List.mem_cons_self p t)
    have hA : '\n' ∉ emitLine p := by
      rw [emitLine_eq]
      simp [hk, hv]
    rw [headerChars_cons, List.append_assoc, List.cons_append]
    rw [splitStream_cons_line (emitLine p) _ hA]
    rw [ih rest (fun q hq => h q (List.mem_cons_of_mem p hq))]
    rw [List.map_cons, List.cons_append]

theorem splitStream_bodyJoin :
    ∀ (ls : List (List Char)), (∀ l ∈ ls, '\n' ∉ l) →
      splitStream '\n' (bodyJoin ls) = ls := by
  intro ls
  induction ls with
  | nil =>
    intro _
    rw [bodyJoin]
    rfl
  | cons l t ih =>
    intro h
    rw [bodyJoin, splitStream_cons_line l _ (h l (List.mem_cons_self l t))]
    rw [ih (fun x hx => h x (List.mem_cons_of_mem l hx))]

end ProxyModel

namespace ProxyModel

/-! ### The header loop preserves the header-phase invariant -/

theorem findIdx?_take_false {p : Char → Bool} :
    ∀ (l : List Char) (i : Nat), l.findIdx? p = some i → ∀ c ∈ l.take i, p c = false := by
  intro l
  induction l with
  | nil =>
    intro i h
    rw [List.findIdx?_nil] at h
    exact absurd h Option.noConfusion
  | cons c t ih =>
    intro i h c0 hc0
    rw [List.findIdx?_cons] at h
    by_cases hp : p c = true
    · rw [if_pos hp] at h
      have h0 : 0 = i := Option.some_inj.mp h
      rw [← h0, List.take_zero] at hc0
      exact absurd hc0 (List.not_mem_nil c0)
    · rw [if_neg hp, List.findIdx?_succ] at h
      cases hfj : t.findIdx? p with
      | none =>
        rw [hfj] at h
        exact absurd h Option.noConfusion
      | some j =>
        rw [hfj, Option.map_some'] at h
        have hji : j + 1 = i := Option.some_inj.mp h
        rw [← hji, List.take_succ_cons] at hc0
        rcases List.mem_cons.mp hc0 with rfl | hc1
        · exact Bool.eq_false_iff.mpr hp
        · exact ih j hfj c0 hc1

theorem processHeaderLine_good {st st' : HeadState} {line : List Char}
    (hline : '\n' ∉ line) (hgood : GoodHead st)
    (h : processHeaderLine line st = some st') : GoodHead st' := by
  rw [processHeaderLine] at h
  cases hfid : line.findIdx? (fun c => decide (c = ':')) with
  | none =>
    rw [hfid] at h
    have hst : st = st' := Option.some_inj.mp h
    subst hst
    exact hgood
  | some i =>
    rw [hfid] at h
    have hkey1 : ':' ∉ line.take i := by
      intro hmem
      have := findIdx?_take_false line i hfid ':' hmem
      simp at this
    have hkey2 : '\n' ∉ line.take i :=
      fun hmem => hline (List.mem_of_mem_take hmem)
    have hval1 : '\n' ∉ trimValue (line.drop (i + 1)) :=
      fun hmem => hline (List.mem_of_mem_drop (mem_trimValue hmem))
    have hval2 : ∀ c, (trimValue (line.drop (i + 1))).head? = some c → c ≠ ' ' :=
      fun c hc => head_trimValue hc
    have hval3 : (trimValue (line.drop (i + 1))).getLast? ≠ some '\r' :=
      getLast_trimValue _
    have hsorted1 : (insertSorted st.header
        (⟨line.take i⟩, ⟨trimValue (line.drop (i + 1))⟩)).Pairwise
        (fun a b => a.1 < b.1) := pairwise_insertSorted _ _ hgood.hsorted
    have hkeys1 : ∀ p ∈ insertSorted st.header
        (⟨line.take i⟩, ⟨trimValue (line.drop (i + 1))⟩),
        ':' ∉ p.1.data ∧ '\n' ∉ p.1.data := by
      intro p hp
      rcases mem_insertSorted hp with rfl | hp2
      · exact ⟨hkey1, hkey2⟩
      · exact hgood.hkeys p hp2
    have hvals1 : ∀ p ∈ insertSorted st.header
        (⟨line.take i⟩, ⟨trimValue (line.drop (i + 1))⟩),
        '\n' ∉ p.2.data ∧ (∀ c, p.2.data.head? = some c → c ≠ ' ') ∧
          p.2.data.getLast? ≠ some '\r' := by
      intro p hp
      rcases mem_insertSorted hp with rfl | hp2
      · exact ⟨hval1, hval2, hval3⟩
      · exact hgood.hvals p hp2
    dsimp only at h
    split at h
    · next hcond =>
      have hst := Option.some_inj.mp h
      subst hst
      have hne : ("Content-Length" : String) ≠ (⟨line.take i⟩ : String) := by
        intro he
        have h2 : ("Content-Length" : String).data = line.take i := congrArg String.data he
        rw [hcond.1] at h2
        exact absurd (String.ext h2) (by decide)
      refine ⟨hsorted1, hkeys1, hvals1, fun _ => rfl, ?_, ?_⟩
      · intro v hv
        exact hgood.hCLsome v
          ((hfind_insertSorted_ne st.header _ "Content-Length" hne).symm.trans hv)
      · intro hnone
        exact hgood.hCLnone
          ((hfind_insertSorted_ne st.header _ "Content-Length" hne).symm.trans hnone)
    · next hcond1 =>
      split at h
      · next hcl =>
        cases hsv : stoiOpt (trimValue (line.drop (i + 1))) with
        | none =>
          rw [hsv] at h
          exact absurd h Option.noConfusion
        | some n =>
          rw [hsv] at h
          have hst := Option.some_inj.mp h
          subst hst
          have hneTE : ("Transfer-Encoding" : String) ≠ (⟨line.take i⟩ : String) := by
            intro he
            have h2 : ("Transfer-Encoding" : String).data = line.take i :=
              congrArg String.data he
            rw [hcl] at h2
            exact absurd (String.ext h2) (by decide)
          have hfs : hfind (insertSorted st.header
              (⟨line.take i⟩, ⟨trimValue (line.drop (i + 1))⟩)) "Content-Length"
              = some ⟨trimValue (line.drop (i + 1))⟩ := by
            have h0 := hfind_insertSorted_self st.header
              (⟨line.take i⟩, ⟨trimValue (line.drop (i + 1))⟩)
            have hkq : ((⟨line.take i⟩ : String)) = "Content-Length" := String.ext hcl
            rw [← hkq]
            exact h0
          refine ⟨hsorted1, hkeys1, hvals1, ?_, ?_, ?_⟩
          · intro hex
            obtain ⟨v, hv, hsub⟩ := hex
            exact hgood.hchunkTE ⟨v,
              (hfind_insertSorted_ne st.header _ "Transfer-Encoding" hneTE).symm.trans hv,
              hsub⟩
          · intro v hv
            have hveq : v = ⟨trimValue (line.drop (i + 1))⟩ :=
              (Option.some_inj.mp (hfs.symm.trans hv)).symm
            rw [hveq]
            exact hsv
          · intro hnone
            exact Option.noConfusion (hfs.symm.trans hnone)
      · next hcl =>
        have hst := Option.some_inj.mp h
        subst hst
        have hneCL : ("Content-Length" : String) ≠ (⟨line.take i⟩ : String) :=
          fun he => hcl (congrArg String.data he).symm
        refine ⟨hsorted1, hkeys1, hvals1, ?_, ?_, ?_⟩
        · intro hex
          obtain ⟨v, hv, hsub⟩ := hex
          by_cases hkTE : line.take i = "Transfer-Encoding".data
          · have hfsT : hfind (insertSorted st.header
                (⟨line.take i⟩, ⟨trimValue (line.drop (i + 1))⟩)) "Transfer-Encoding"
                = some ⟨trimValue (line.drop (i + 1))⟩ := by
              have h0 := hfind_insertSorted_self st.header
                (⟨line.take i⟩, ⟨trimValue (line.drop (i + 1))⟩)
              have hkq : ((⟨line.take i⟩ : String)) = "Transfer-Encoding" := String.ext hkTE
              rw [← hkq]
              exact h0
            have hveq : v = ⟨trimValue (line.drop (i + 1))⟩ :=
              (Option.some_inj.mp (hfsT.symm.trans hv)).symm
            rw [hveq] at hsub
            exact absurd ⟨hkTE, hsub⟩ hcond1
          · have hneTE : ("Transfer-Encoding" : String) ≠ (⟨line.take i⟩ : String) :=
              fun he => hkTE (congrArg String.data he).symm
            exact hgood.hchunkTE ⟨v,
              (hfind_insertSorted_ne st.header _ "Transfer-Encoding" hneTE).symm.trans hv,
              hsub⟩
        · intro v hv
          exact hgood.hCLsome v
            ((hfind_insertSorted_ne st.header _ "Content-Length" hneCL).symm.trans hv)
        · intro hnone
          exact hgood.hCLnone
            ((hfind_insertSorted_ne st.header _ "Content-Length" hneCL).symm.trans hnone)

theorem parseHeaders_good :
    ∀ (lines : List (List Char)) (st st' : HeadState) (bls : List (List Char)),
      (∀ l ∈ lines, '\n' ∉ l) → GoodHead st →
      parseHeaders lines st = some (st', bls) →
      GoodHead st' ∧ ∀ l ∈ bls, l ∈ lines := by
  intro lines
  induction lines with
  | nil =>
    intro st st' bls _ hg h
    rw [parseHeaders] at h
    obtain ⟨h1, h2⟩ := Prod.mk.inj_iff.mp (Option.some_inj.mp h)
    subst h1
    subst h2
    exact ⟨hg, fun l hl => absurd hl (List.not_mem_nil l)⟩
  | cons l rest ih =>
    intro st st' bls hnl hg h
    rw [parseHeaders] at h
    split at h
    · obtain ⟨h1, h2⟩ := Prod.mk.inj_iff.mp (Option.some_inj.mp h)
      subst h1
      subst h2
      exact ⟨hg, fun x hx => List.mem_cons_of_mem l hx⟩
    · cases hph : processHeaderLine l st with
      | none =>
        rw [hph] at h
        exact absurd h Option.noConfusion
      | some st1 =>
        rw [hph] at h
        have hg1 := processHeaderLine_good (hnl l (List.mem_cons_self l rest)) hg hph
        obtain ⟨hgo, hsub⟩ := ih st1 st' bls
          (fun x hx => hnl x (List.mem_cons_of_mem l hx)) hg1 h
        exact ⟨hgo, fun x hx => List.mem_cons_of_mem l (hsub x hx)⟩

end ProxyModel

namespace ProxyModel

/-! ### Frame lemmas: parseCacheControl and setExpiredTime keep the core fields -/

theorem sameCore_trans {a b c : Response} (h1 : sameCore a b) (h2 : sameCore b c) :
    sameCore a c := by
  obtain ⟨a1, a2, a3, a4, a5, a6, a7⟩ := h1
  obtain ⟨b1, b2, b3, b4, b5, b6, b7⟩ := h2
  exact ⟨a1.trans b1, a2.trans b2, a3.trans b3, a4.trans b4, a5.trans b5,
    a6.trans b6, a7.trans b7⟩

theorem ccDirective_core (st : CCState) (d : List Char) :
    sameCore (ccDirective st d).r st.r := by
  rw [ccDirective]
  repeat' split
  all_goals exact ⟨rfl, rfl, rfl, rfl, rfl, rfl, rfl⟩

theorem ccFold_core : ∀ (ds : List (List Char)) (st : CCState),
    sameCore ((ds.foldl ccDirective st).r) st.r := by
  intro ds
  induction ds with
  | nil =>
    intro st
    exact ⟨rfl, rfl, rfl, rfl, rfl, rfl, rfl⟩
  | cons d t ih =>
    intro st
    rw [List.foldl_cons]
    exact sameCore_trans (ih (ccDirective st d)) (ccDirective_core st d)

theorem parseCacheControl_core (r : Response) : sameCore (parseCacheControl r) r := by
  rw [parseCacheControl]
  have hupd : ∀ (r2 : Response) (m : Int), sameCore { r2 with cache_mode := m } r2 :=
    fun r2 m => ⟨rfl, rfl, rfl, rfl, rfl, rfl, rfl⟩
  split
  · exact ⟨rfl, rfl, rfl, rfl, rfl, rfl, rfl⟩
  · dsimp only
    split
    · exact sameCore_trans (hupd _ _) (ccFold_core _ _)
    · exact ccFold_core _ _

theorem setExpiredElse_core (phd : String → Int) (fmt : Int → String)
    (r : Response) (d? : Option String) : sameCore (setExpiredElse phd fmt r d?) r := by
  rw [setExpiredElse.eq_def]
  repeat' split
  all_goals exact ⟨rfl, rfl, rfl, rfl, rfl, rfl, rfl⟩

theorem setExpiredTime_core (phd : String → Int) (fmt : Int → String) (r : Response) :
    sameCore (setExpiredTime phd fmt r) r := by
  rw [setExpiredTime]
  repeat' split
  all_goals first
  | exact ⟨rfl, rfl, rfl, rfl, rfl, rfl, rfl⟩
  | exact setExpiredElse_core phd fmt r (some _)
  | exact setExpiredElse_core phd fmt r none

/-! ### Structure of parseStatusLine results -/

theorem readDigitsOpt_rest {u : List Char} {n : Nat} {rest : List Char}
    (h : readDigitsOpt u = some (n, rest)) : ∀ c ∈ rest, c ∈ u := by
  rw [readDigitsOpt] at h
  split at h
  · exact absurd h Option.noConfusion
  · have h2 := Prod.mk.inj_iff.mp (Option.some_inj.mp h)
    intro c hc
    rw [← h2.2] at hc
    exact List.dropWhile_subset isDigitC hc

theorem mem_of_readIntFrom {s : List Char} {n : Int} {rest : List Char}
    (h : readIntFrom s = some (n, rest)) : ∀ c ∈ rest, c ∈ s := by
  intro c hc
  cases ht : s.dropWhile isSpaceC with
  | nil =>
    rw [readIntFrom, ht] at h
    exact absurd h Option.noConfusion
  | cons c0 u =>
    rw [readIntFrom, ht] at h
    have hsub : ∀ x ∈ c0 :: u, x ∈ s := by
      intro x hx
      rw [← ht] at hx
      exact List.dropWhile_subset isSpaceC hx
    have h2 : (if c0 = '-' then (readDigitsOpt u).map (fun p => (-(p.1 : Int), p.2))
        else if c0 = '+' then (readDigitsOpt u).map (fun p => ((p.1 : Int), p.2))
        else (readDigitsOpt (c0 :: u)).map (fun p => ((p.1 : Int), p.2)))
        = some (n, rest) := h
    clear h
    by_cases hm : c0 = '-'
    · rw [if_pos hm] at h2
      cases hrd : readDigitsOpt u with
      | none =>
        rw [hrd] at h2
        exact absurd h2 Option.noConfusion
      | some pr =>
        obtain ⟨m, r2⟩ := pr
        rw [hrd, Option.map_some'] at h2
        have h3 := Prod.mk.inj_iff.mp (Option.some_inj.mp h2)
        rw [← h3.2] at hc
        exact hsub c (List.mem_cons_of_mem c0 (readDigitsOpt_rest hrd c hc))
    · rw [if_neg hm] at h2
      by_cases hp2 : c0 = '+'
      · rw [if_pos hp2] at h2
        cases hrd : readDigitsOpt u with
        | none =>
          rw [hrd] at h2
          exact absurd h2 Option.noConfusion
        | some pr =>
          obtain ⟨m, r2⟩ := pr
          rw [hrd, Option.map_some'] at h2
          have h3 := Prod.mk.inj_iff.mp (Option.some_inj.mp h2)
          rw [← h3.2] at hc
          exact hsub c (List.mem_cons_of_mem c0 (readDigitsOpt_rest hrd c hc))
      · rw [if_neg hp2] at h2
        cases hrd : readDigitsOpt (c0 :: u) with
        | none =>
          rw [hrd] at h2
          exact absurd h2 Option.noConfusion
        | some pr =>
          obtain ⟨m, r2⟩ := pr
          rw [hrd, Option.map_some'] at h2
          have h3 := Prod.mk.inj_iff.mp (Option.some_inj.mp h2)
          rw [← h3.2] at hc
          exact hsub c (readDigitsOpt_rest hrd c hc)

theorem parseStatusLine_props (line : List Char) :
    (∀ c ∈ (parseStatusLine line).1.data, isSpaceC c = false) ∧
    ((parseStatusLine line).1.data = [] →
      (parseStatusLine line).2.1 = 0 ∧ (parseStatusLine line).2.2 = "") ∧
    (∀ c ∈ (parseStatusLine line).2.2.data, c ∈ line) := by
  rw [parseStatusLine]
  dsimp only
  split
  · refine ⟨?_, fun _ => ⟨rfl, rfl⟩, ?_⟩
    · intro c hc
      exact absurd hc (List.not_mem_nil c)
    · intro c hc
      exact absurd hc (List.not_mem_nil c)
  · next hemp =>
    split
    · refine ⟨?_, fun _ => ⟨rfl, rfl⟩, ?_⟩
      · intro c hc
        have h2 := List.mem_takeWhile_imp hc
        simpa using h2
      · intro c hc
        exact absurd hc (List.not_mem_nil c)
    · next n rest2 hsome =>
      refine ⟨?_, ?_, ?_⟩
      · intro c hc
        have h2 := List.mem_takeWhile_imp hc
        simpa using h2
      · intro hd
        have hd2 : (line.dropWhile isSpaceC).takeWhile (fun c => !isSpaceC c) = [] := hd
        exact absurd ((by rw [hd2]; rfl) : ((line.dropWhile isSpaceC).takeWhile
          (fun c => !isSpaceC c)).isEmpty = true) hemp
      · intro c hc
        have h3 := mem_of_readIntFrom hsome c hc
        exact List.dropWhile_subset isSpaceC
          (List.dropWhile_subset (fun c => !isSpaceC c) h3)

/-! ### Every parsed response satisfies the structural facts -/

theorem goodHead_init :
    GoodHead { header := [], is_chunked := false, content_length := -1 } := by
  refine ⟨List.Pairwise.nil, ?_, ?_, ?_, ?_, ?_⟩
  · intro p hp
    exact absurd hp (List.not_mem_nil p)
  · intro p hp
    exact absurd hp (List.not_mem_nil p)
  · intro hex
    obtain ⟨v, hv, _⟩ := hex
    exact absurd hv (by rw [hfind]; exact Option.noConfusion)
  · intro v hv
    exact absurd hv (by rw [hfind]; exact Option.noConfusion)
  · intro _
    rfl

theorem parse_good {phd : String → Int} {fmt : Int → String} {buf : String} {R : Response}
    (h : parseResponse phd fmt buf = some R) : GoodResp R := by
  rw [parseResponse] at h
  cases hsp : splitStream '\n' buf.data with
  | nil =>
    rw [hsp] at h
    exact absurd h Option.noConfusion
  | cons statusLine rest =>
    rw [hsp] at h
    dsimp only at h
    have hlines : ∀ l ∈ statusLine :: rest, '\n' ∉ l := by
      rw [← hsp]
      exact splitStream_no_delim '\n' buf.data
    cases hph : parseHeaders rest { header := [], is_chunked := false, content_length := -1 } with
    | none =>
      rw [hph] at h
      exact absurd h Option.noConfusion
    | some pr =>
      obtain ⟨hst, bodyLines⟩ := pr
      rw [hph] at h
      dsimp only at h
      have hR := Option.some_inj.mp h
      have hcore : sameCore R
          { status_code := (parseStatusLine statusLine).2.1,
            status_message := (parseStatusLine statusLine).2.2,
            http_version := (parseStatusLine statusLine).1,
            header := hst.header,
            body := if hst.is_chunked = true then "" else ⟨bodyJoin bodyLines⟩,
            is_chunked := hst.is_chunked,
            content_length := hst.content_length } := by
        rw [← hR]
        exact sameCore_trans (setExpiredTime_core _ _ _) (parseCacheControl_core _)
      obtain ⟨hsc, hsm, hhv, hhd, hbd, hic, hcl⟩ := hcore
      obtain ⟨hgood, hbsub⟩ := parseHeaders_good rest _ hst bodyLines
        (fun l hl => hlines l (List.mem_cons_of_mem statusLine hl)) goodHead_init hph
      have hps := parseStatusLine_props statusLine
      refine ⟨?_, ?_, ?_, ?_, ?_, ?_, ?_, ?_, ?_, ?_, ?_⟩
      · intro c hc
        rw [hhv] at hc
        exact hps.1 c hc
      · intro hd
        rw [hhv] at hd
        obtain ⟨h1, h2⟩ := hps.2.1 hd
        rw [hsc, hsm]
        exact ⟨h1, h2⟩
      · intro hmem
        rw [hsm] at hmem
        exact hlines statusLine (List.mem_cons_self statusLine rest)
          (hps.2.2 '\n' hmem)
      · rw [hhd]
        exact hgood.hsorted
      · intro p hp
        rw [hhd] at hp
        exact hgood.hkeys p hp
      · intro p hp
        rw [hhd] at hp
        exact hgood.hvals p hp
      · intro hex
        rw [hic]
        obtain ⟨v, hv, hs⟩ := hex
        rw [hhd] at hv
        exact hgood.hchunkTE ⟨v, hv, hs⟩
      · intro v hv
        rw [hhd] at hv
        rw [hcl]
        exact hgood.hCLsome v hv
      · intro hnone
        rw [hhd] at hnone
        rw [hcl]
        exact hgood.hCLnone hnone
      · intro hc
        rw [hbd, if_pos (hic.symm.trans hc)]
      · intro hnc
        have hf : hst.is_chunked = false := hic.symm.trans hnc
        refine ⟨bodyLines, ?_, ?_⟩
        · intro l hl
          exact hlines l (List.mem_cons_of_mem statusLine (hbsub l hl))
        · rw [hbd, hf]
          rfl

end ProxyModel

namespace ProxyModel

theorem keys_nodup_right {l1 l2 : List (String × String)} {p : String × String}
    (h : ((l1 ++ p :: l2).map Prod.fst).Nodup) : ∀ q ∈ l2, q.1 ≠ p.1 := by
  rw [List.map_append, List.map_cons] at h
  have h2 := (List.nodup_append.mp h).2.1
  intro q hq he
  exact (List.nodup_cons.mp h2).1 (he ▸ List.mem_map_of_mem Prod.fst hq)

/-- C8: serialize/re-parse round-trip, amended.  For a response `R` produced by
`parseResponse`, re-parsing `R.toString()` reproduces `status_code`, the header
map, `body`, `is_chunked` and `content_length` — provided `is_chunked` is
backed by a stored `Transfer-Encoding` header whose value contains "chunked"
(the final value, after `header[key] = value` overwriting).  The unamended
claim is refuted by `claim_C8_counterexample`: a duplicated Transfer-Encoding
header ("chunked" first, "gzip" last) makes `is_chunked = true` while the
serialized buffer re-parses with `is_chunked = false`. -/
theorem claim_C8 (phd pd2 : String → Int) (fmt fmt2 : Int → String) (buf : String)
    (R : Response) (hparse : parseResponse phd fmt buf = some R)
    (hTE : R.is_chunked = true → ∃ v, hfind R.header "Transfer-Encoding" = some v ∧
      hasSub "chunked".data v.data = true) :
    ∃ R2, parseResponse pd2 fmt2 (respToString R) = some R2 ∧
      R2.status_code = R.status_code ∧ R2.header = R.header ∧ R2.body = R.body ∧
      R2.is_chunked = R.is_chunked ∧ R2.content_length = R.content_length := by
  have G := parse_good hparse
  have hknd : (R.header.map Prod.fst).Nodup := keys_nodup_of_sorted R.header G.hsorted
  have hstat_nl : '\n' ∉ statusChars R := by
    rw [statusChars]
    intro hmem
    rcases List.mem_append.mp hmem with h1 | h1
    · exact absurd (G.hver '\n' h1) (by decide)
    · rcases List.mem_append.mp h1 with h2 | h2
      · rcases List.mem_cons.mp h2 with h3 | h3
        · exact absurd h3 (by decide)
        · exact intToChars_no_newline R.status_code h3
      · rcases List.mem_append.mp h2 with h3 | h3
        · rcases List.mem_cons.mp h3 with h4 | h4
          · exact absurd h4 (by decide)
          · exact G.hmsg h4
        · rcases List.mem_singleton.mp h3 with h5
          exact absurd h5 (by decide)
  have hkeysvals : ∀ p ∈ R.header, '\n' ∉ p.1.data ∧ '\n' ∉ p.2.data :=
    fun p hp => ⟨(G.hkeys p hp).2, (G.hvals p hp).1⟩
  have hchars : respChars R
      = statusChars R ++ '\n' :: (headerChars R.header ++ ('\r' :: '\n' :: R.body.data)) := by
    rw [respChars, statusChars]
    simp [List.append_assoc]
  have hsplit : splitStream '\n' (respChars R)
      = statusChars R :: (R.header.map emitLine
          ++ ['\r'] :: splitStream '\n' R.body.data) := by
    rw [hchars, splitStream_cons_line _ _ hstat_nl,
      splitStream_headerChars R.header R.body.data hkeysvals]
  have hlprops : ∀ p ∈ R.header, ':' ∉ p.1.data ∧
      (∀ c, p.2.data.head? = some c → c ≠ ' ') ∧ p.2.data.getLast? ≠ some '\r' ∧
      (p.1 = "Content-Length" → (stoiOpt p.2.data).isSome = true) := by
    intro p hp
    refine ⟨(G.hkeys p hp).1, (G.hvals p hp).2.1, (G.hvals p hp).2.2, ?_⟩
    intro hcl
    have hf : hfind R.header "Content-Length" = some p.2 := by
      have h0 := hfind_of_mem_nodup hknd hp
      rw [hcl] at h0
      exact h0
    rw [G.hCLsome p.2 hf]
    rfl
  have hPH := parseHeaders_emit R.header ⟨[], false, -1⟩
    (splitStream '\n' R.body.data) hlprops
  have hpr : parseResponse pd2 fmt2 (respToString R)
      = some (setExpiredTime pd2 fmt2 (parseCacheControl
          { status_code := (parseStatusLine (statusChars R)).2.1
            status_message := (parseStatusLine (statusChars R)).2.2
            http_version := (parseStatusLine (statusChars R)).1
            header := (R.header.foldl stepH ⟨[], false, -1⟩).header
            body := if (R.header.foldl stepH ⟨[], false, -1⟩).is_chunked = true then ""
              else ⟨bodyJoin (splitStream '\n' R.body.data)⟩
            is_chunked := (R.header.foldl stepH ⟨[], false, -1⟩).is_chunked
            content_length := (R.header.foldl stepH ⟨[], false, -1⟩).content_length })) := by
    rw [parseResponse]
    rw [show (respToString R).data = respChars R from rfl]
    rw [hsplit]
    dsimp only
    rw [hPH]
    try rfl
  have hH : (R.header.foldl stepH (⟨[], false, -1⟩ : HeadState)).header = R.header := by
    rw [foldl_stepH_header]
    show R.header.foldl (fun m q => insertSorted m q) [] = R.header
    rw [foldl_insertSorted_sorted R.header [] (by rw [List.nil_append]; exact G.hsorted)]
    rw [List.nil_append]
  have hC : (R.header.foldl stepH (⟨[], false, -1⟩ : HeadState)).is_chunked
      = R.is_chunked := by
    rw [foldl_stepH_chunked]
    show (false || R.header.any (fun p => decide (p.1 = "Transfer-Encoding")
      && hasSub "chunked".data p.2.data)) = R.is_chunked
    rw [Bool.false_or]
    cases hRc : R.is_chunked with
    | true =>
      obtain ⟨v, hfv, hsv⟩ := hTE hRc
      refine List.any_eq_true.mpr ⟨("Transfer-Encoding", v), mem_of_hfind hfv, ?_⟩
      simp [hsv]
    | false =>
      refine List.any_eq_false.mpr ?_
      intro p hp hcond
      simp only [Bool.and_eq_true, decide_eq_true_eq] at hcond
      have hfp := hfind_of_mem_nodup hknd hp
      rw [hcond.1] at hfp
      have h0 := G.hchunkTE ⟨p.2, hfp, hcond.2⟩
      exact absurd (hRc.symm.trans h0) (by decide)
  have hL : (R.header.foldl stepH (⟨[], false, -1⟩ : HeadState)).content_length
      = R.content_length := by
    cases hfCL : hfind R.header "Content-Length" with
    | some v =>
      obtain ⟨l1, l2, hdec⟩ := List.append_of_mem (mem_of_hfind hfCL)
      have hnd2 : ∀ q ∈ l2, q.1 ≠ "Content-Length" := by
        rw [hdec] at hknd
        exact fun q hq => keys_nodup_right hknd q hq
      rw [hdec, foldl_stepH_content_last l1 l2 ("Content-Length", v) _ rfl hnd2]
      rw [G.hCLsome v hfCL]
      rfl
    | none =>
      rw [foldl_stepH_content_none R.header _ (hfind_none_not_mem hfCL)]
      show (-1 : Int) = R.content_length
      rw [G.hCLnone hfCL]
  have hsc : (parseStatusLine (statusChars R)).2.1 = R.status_code :=
    parseStatusLine_emit R.http_version R.status_message R.status_code G.hver G.hverCase
  have hbodyeq : (if R.is_chunked = true then ("" : String)
      else ⟨bodyJoin (splitStream '\n' R.body.data)⟩) = R.body := by
    cases hRc : R.is_chunked with
    | true =>
      rw [if_pos rfl]
      rw [G.hbodyChunked hRc]
    | false =>
      obtain ⟨ls, hlsn, hbody⟩ := G.hbodyLines hRc
      have hbls : splitStream '\n' R.body.data = ls := by
        rw [hbody]
        exact splitStream_bodyJoin ls hlsn
      rw [if_neg (by exact Bool.false_ne_true)]
      rw [hbls]
      exact String.ext hbody.symm
  rw [hsc, hH, hC, hL, hbodyeq] at hpr
  have hcore : ∀ r0 : Response, sameCore (setExpiredTime pd2 fmt2 (parseCacheControl r0)) r0 :=
    fun r0 => sameCore_trans (setExpiredTime_core pd2 fmt2 (parseCacheControl r0))
      (parseCacheControl_core r0)
  refine ⟨_, hpr, ?_, ?_, ?_, ?_, ?_⟩
  · rw [(hcore _).1]
  · rw [(hcore _).2.2.2.1]
  · rw [(hcore _).2.2.2.2.1]
  · rw [(hcore _).2.2.2.2.2.1]
  · rw [(hcore _).2.2.2.2.2.2]

theorem insertSorted_TE :
    insertSorted [("Transfer-Encoding", "chunked")] ("Transfer-Encoding", "gzip")
      = [("Transfer-Encoding", "gzip")] := by
  rw [insertSorted, if_neg (lt_irrefl _), if_pos rfl]

theorem cexFold :
    List.foldl stepH (⟨[], false, -1⟩ : HeadState)
      [("Transfer-Encoding", "chunked"), ("Transfer-Encoding", "gzip")]
      = ⟨[("Transfer-Encoding", "gzip")], true, -1⟩ := by
  rw [List.foldl_cons, List.foldl_cons, List.foldl_nil]
  rw [show stepH (⟨[], false, -1⟩ : HeadState) ("Transfer-Encoding", "chunked")
    = ⟨[("Transfer-Encoding", "chunked")], true, -1⟩ from by decide]
  rw [stepH, if_neg (by decide), if_neg (by decide), insertSorted_TE]

set_option maxRecDepth 100000 in
theorem cex_parse : parseResponse pdZ fmtZ cBuf8 = some
    { status_code := 200
      status_message := " OK\r"
      http_version := "HTTP/1.1"
      header := [("Transfer-Encoding", "gzip")]
      body := ""
      is_chunked := true
      content_length := -1 } := by
  have hsplit : splitStream '\n' cBuf8.data
      = ["HTTP/1.1 200 OK\r".data, "Transfer-Encoding: chunked\r".data,
         "Transfer-Encoding: gzip\r".data, "\r".data] := by decide
  have hml : ["Transfer-Encoding: chunked\r".data, "Transfer-Encoding: gzip\r".data,
        ("\r".data : List Char)]
      = [("Transfer-Encoding", "chunked"), ("Transfer-Encoding", "gzip")].map emitLine
        ++ ['\r'] :: ([] : List (List Char)) := by decide
  have hprops2 : ∀ p ∈ [("Transfer-Encoding", "chunked"),
      ("Transfer-Encoding", ("gzip" : String))],
      ':' ∉ p.1.data ∧ (∀ c, p.2.data.head? = some c → c ≠ ' ') ∧
      p.2.data.getLast? ≠ some '\r' ∧
      (p.1 = "Content-Length" → (stoiOpt p.2.data).isSome = true) := by
    intro p hp
    rcases List.mem_cons.mp hp with rfl | hp2
    · refine ⟨by decide, ?_, by decide, by decide⟩
      intro c hc
      cases Option.some_inj.mp hc
      decide
    · rcases List.mem_cons.mp hp2 with rfl | hp3
      · refine ⟨by decide, ?_, by decide, by decide⟩
        intro c hc
        cases Option.some_inj.mp hc
        decide
      · exact absurd hp3 (List.not_mem_nil p)
  have hPH2 := parseHeaders_emit
    [("Transfer-Encoding", "chunked"), ("Transfer-Encoding", "gzip")]
    ⟨[], false, -1⟩ [] hprops2
  rw [parseResponse, hsplit]
  dsimp only
  rw [hml, hPH2]
  dsimp only
  rw [cexFold]
  decide

set_option maxRecDepth 100000 in
/-- C8 counterexample: on `cBuf8` (Transfer-Encoding appearing twice, "chunked"
then "gzip"), `parseResponse` yields `is_chunked = true` but stores only the
last Transfer-Encoding value, so re-parsing the serialized response yields
`is_chunked = false` — refuting the unamended round-trip claim. -/
theorem claim_C8_counterexample :
    (parseResponse pdZ fmtZ cBuf8).map Response.is_chunked = some true ∧
    ((parseResponse pdZ fmtZ cBuf8).bind
      (fun R => parseResponse pdZ fmtZ (respToString R))).map Response.is_chunked
      = some false := by
  rw [cex_parse]
  exact ⟨rfl, by decide⟩

set_option maxRecDepth 100000 in
/-- Witness for C8: the concrete buffer `wBuf8` parses to `wR8`, and the
amended round-trip theorem applies to it. -/
theorem claim_C8_witness :
    parseResponse pdZ fmtZ wBuf8 = some wR8 ∧
    ∃ R2, parseResponse pdZ fmtZ (respToString wR8) = some R2 ∧
      R2.status_code = wR8.status_code ∧ R2.header = wR8.header ∧ R2.body = wR8.body ∧
      R2.is_chunked = wR8.is_chunked ∧ R2.content_length = wR8.content_length :=
  ⟨by decide, claim_C8 pdZ pdZ fmtZ fmtZ wBuf8 wR8 (by decide)
    (fun h => absurd h (by decide))⟩

end ProxyModel
